import Mathlib

/-!
Verification of the whatsapp_stats analyzer (src/main.rs) against its
specification.  The Rust program is shallowly embedded:

* the transcript is a `List Char`; `rustLines` models Rust's `str::lines`
  (split at LF, strip one CR that immediately precedes an LF, no final
  empty line);
* `matchHeader` models the anchored regex
  `^\[(\d{1,2}/\d{1,2}/\d{2}), (\d{1,2}:\d{2}:\d{2}\u{202F}[AP]M)] (.*?): (.*)`
  (digits are ASCII, the author group is lazy so it stops at the first
  colon-space, the last group runs to the end of the line);
* `headerTimestamp` models `NaiveDateTime::parse_from_str` with format
  `%m/%d/%y %I:%M:%S %p`: two-digit years pivot through 69 (00-68 maps to
  20yy, 69-99 to 19yy), month 1-12, day valid for the Gregorian month,
  hour 1-12, minute 0-59, second 0-60 (chrono accepts leap seconds).
  The resulting instant (fixed zero offset) is encoded as a natural
  number `tsKey` that is strictly monotone in chronological order, so
  `<` on encoded timestamps coincides with chrono's `DateTime` order;
* `parse` models the extraction loop; a panic of the Rust program
  (`unwrap` on a failed date parse) is modelled as `none` - the local
  message vector is dropped, so no messages are produced;
* `f32` percentage arithmetic is idealized as exact arithmetic: a finite
  float is a normalized fraction of naturals (`FVal.fin`), `0.0 / 0.0`
  is `FVal.nan` and `x / 0.0` for `x > 0` is `FVal.inf`, exactly the
  IEEE results of the divisions the program can perform (rounding is
  abstracted away; every claim proved here is rounding-independent);
* `compute_stats` models the aggregation pass; Rust's
  `HashMap::into_values` yields values in an unspecified order, the
  embedding returns them in first-insertion order, and every statement
  proved about `compute_stats` is insensitive to that order (sums and
  per-author lookups).  The presentation order of `print_stats` is
  studied as a function of the stat list it receives, which captures
  the hash-order nondeterminism by quantification.
-/

namespace WS

/-- Unicode code points with the White_Space property, as used by Rust's
`char::is_whitespace`, `str::trim` and `str::split_whitespace`. -/
def rustIsWhitespace (c : Char) : Bool :=
  decide ((9 ≤ c.toNat ∧ c.toNat ≤ 13) ∨ c.toNat = 32 ∨ c.toNat = 133 ∨
    c.toNat = 160 ∨ c.toNat = 0x1680 ∨ (0x2000 ≤ c.toNat ∧ c.toNat ≤ 0x200A) ∨
    c.toNat = 0x2028 ∨ c.toNat = 0x2029 ∨ c.toNat = 0x202F ∨
    c.toNat = 0x205F ∨ c.toNat = 0x3000)

/-- Auxiliary word counter: `inWord` records whether the previous character
was part of a word.  Counts the maximal non-whitespace runs, which is what
`str::split_whitespace(...).count()` returns. -/
def countWordsAux : Bool → List Char → Nat
  | _, [] => 0
  | inWord, c :: rest =>
    if rustIsWhitespace c then countWordsAux false rest
    else (if inWord then 0 else 1) + countWordsAux true rest

/-- Number of whitespace-delimited words of a text, modelling
`text.split_whitespace().count()`. -/
def countWords (l : List Char) : Nat := countWordsAux false l

/-- Model of `str::trim`: remove leading and trailing Unicode whitespace. -/
def trim (l : List Char) : List Char :=
  ((l.dropWhile rustIsWhitespace).reverse.dropWhile rustIsWhitespace).reverse

/-- If the last character of the (reversed) accumulated line is a CR, drop
it.  Used by `linesGo` when an LF is found: Rust's `str::lines` strips one
CR immediately preceding the LF. -/
def stripCRHead : List Char → List Char
  | [] => []
  | c :: t => if c = '\r' then t else c :: t

/-- Worker for `rustLines`; `acc` holds the current line reversed. -/
def linesGo : List Char → List Char → List (List Char)
  | [], acc => if acc.isEmpty then [] else [acc.reverse]
  | c :: rest, acc =>
    if c = '\n' then (stripCRHead acc).reverse :: linesGo rest []
    else linesGo rest (c :: acc)

/-- Model of Rust's `content.lines()`: split at `\n`, strip a `\r` that
immediately precedes a `\n`, and do not yield a final empty line when the
content ends with a terminator. -/
def rustLines (s : List Char) : List (List Char) := linesGo s []

/-- A message as produced by the extractor.  The chrono
`DateTime<FixedOffset>` (offset zero) is encoded as a natural number whose
order coincides with chronological order, see `tsKey`. -/
structure Message where
  timestamp : Nat
  author : List Char
  text : List Char
deriving DecidableEq, Repr

/-- Match a single fixed character at the head of the input, returning the
remainder. -/
def expectChar (c : Char) : List Char → Option (List Char)
  | [] => none
  | x :: rest => if x = c then some rest else none

/-- Numeric value of a run of ASCII digits. -/
def digitsToNat (ds : List Char) : Nat :=
  ds.foldl (fun n c => 10 * n + (c.toNat - 48)) 0

/-- Model of the regex fragment `\d{1,2}` followed by a non-digit literal:
with backtracking, the fragment matches exactly when the maximal digit run
at this position has length 1 or 2 (a third digit makes both the two-digit
and the one-digit attempt fail on the following literal). -/
def numUpTo2 (l : List Char) : Option (Nat × List Char) :=
  let ds := l.takeWhile Char.isDigit
  if ds.length = 1 ∨ ds.length = 2 then
    some (digitsToNat ds, l.dropWhile Char.isDigit)
  else none

/-- Model of the regex fragment `\d{2}` followed by a non-digit literal:
the maximal digit run must have length exactly 2. -/
def numExactly2 (l : List Char) : Option (Nat × List Char) :=
  let ds := l.takeWhile Char.isDigit
  if ds.length = 2 then some (digitsToNat ds, l.dropWhile Char.isDigit)
  else none

/-- Model of `[AP]M`: returns `true` for PM. -/
def expectAMPM : List Char → Option (Bool × List Char)
  | c1 :: c2 :: rest =>
    if c2 = 'M' ∧ (c1 = 'A' ∨ c1 = 'P') then some (decide (c1 = 'P'), rest)
    else none
  | _ => none

/-- Model of the lazy tail `(.*?): (.*)` of the regex: the author group is
the shortest prefix ending right before the first colon-space, and the
last group is everything after that separator. -/
def splitOnColonSpace : List Char → Option (List Char × List Char)
  | [] => none
  | c :: rest =>
    if c = ':' ∧ rest.head? = some ' ' then some ([], rest.tail)
    else (splitOnColonSpace rest).map (fun p => (c :: p.1, p.2))

/-- The narrow no-break space U+202F of the header grammar. -/
def nbsp : Char := Char.ofNat 0x202F

/-- The captures of a successful header match. -/
structure HeaderMatch where
  month : Nat
  day : Nat
  yy : Nat
  hour12 : Nat
  minute : Nat
  second : Nat
  pm : Bool
  author : List Char
  rest : List Char
deriving DecidableEq, Repr

/-- Model of `re.captures(line)` for the header regex, anchored at the
start of the line by `^` (`.` cannot match `\n`, but lines never contain
one).  This function handles the regex fragment
`\d{1,2}/\d{1,2}/\d{2}` (capture 1). -/
def matchDate (l : List Char) : Option ((Nat × Nat × Nat) × List Char) := do
  let (mo, r1) ← numUpTo2 l
  let r2 ← expectChar '/' r1
  let (d, r3) ← numUpTo2 r2
  let r4 ← expectChar '/' r3
  let (yy, r5) ← numExactly2 r4
  some ((mo, d, yy), r5)

/-- The regex fragment `\d{1,2}:\d{2}:\d{2}\u{202F}[AP]M` (capture 2). -/
def matchTime (l : List Char) :
    Option ((Nat × Nat × Nat × Bool) × List Char) := do
  let (h12, r8) ← numUpTo2 l
  let r9 ← expectChar ':' r8
  let (mi, r10) ← numExactly2 r9
  let r11 ← expectChar ':' r10
  let (s, r12) ← numExactly2 r11
  let r13 ← expectChar nbsp r12
  let (pm, r14) ← expectAMPM r13
  some ((h12, mi, s, pm), r14)

/-- The whole header regex, assembled from its pieces. -/
def matchHeader (line : List Char) : Option HeaderMatch := do
  let r0 ← expectChar '[' line
  let (dt, r5) ← matchDate r0
  let r6 ← expectChar ',' r5
  let r7 ← expectChar ' ' r6
  let (tm, r14) ← matchTime r7
  let r15 ← expectChar ']' r14
  let r16 ← expectChar ' ' r15
  let (a, rest) ← splitOnColonSpace r16
  some ⟨dt.1, dt.2.1, dt.2.2, tm.1, tm.2.1, tm.2.2.1, tm.2.2.2, a, rest⟩

/-- The header match of the same line with one carriage return appended:
only the last capture (the rest of the line) changes. -/
def addCRHeader (h : HeaderMatch) : HeaderMatch :=
  ⟨h.month, h.day, h.yy, h.hour12, h.minute, h.second, h.pm, h.author,
    h.rest ++ ['\r']⟩

/-- Gregorian leap-year rule. -/
def leapYear (y : Nat) : Bool :=
  decide (y % 4 = 0 ∧ (y % 100 ≠ 0 ∨ y % 400 = 0))

/-- Days of a Gregorian month. -/
def daysInMonth (y mo : Nat) : Nat :=
  if mo = 2 then (if leapYear y then 29 else 28)
  else if mo = 4 ∨ mo = 6 ∨ mo = 9 ∨ mo = 11 then 30 else 31

/-- chrono's two-digit year pivot for `%y`: 00-68 maps to 2000-2068 and
69-99 to 1969-1999. -/
def pivotYear (yy : Nat) : Nat := if yy ≤ 68 then 2000 + yy else 1900 + yy

/-- Conversion of a 12-hour clock reading to a 24-hour one. -/
def hour24 (h12 : Nat) (pm : Bool) : Nat := h12 % 12 + (if pm then 12 else 0)

/-- Order-preserving encoding of a civil date-time (fixed zero offset) as a
natural number.  Field bounds (month is at most 12, day at most 31, hour at
most 23, minute at most 59, second at most 60) keep the encoding
lexicographic, hence strictly monotone in chronological order; this also
matches chrono's ordering of a parsed leap second. -/
def tsKey (y mo d h mi s : Nat) : Nat :=
  ((((y * 13 + mo) * 32 + d) * 24 + h) * 60 + mi) * 61 + s

/-- Model of
`NaiveDateTime::parse_from_str(..., "%m/%d/%y %I:%M:%S %p").unwrap()` on
the captured header fields: `none` models the panic on an out-of-range
field or invalid civil date. -/
def headerTimestamp (h : HeaderMatch) : Option Nat :=
  if 1 ≤ h.month ∧ h.month ≤ 12 ∧ 1 ≤ h.day ∧
      h.day ≤ daysInMonth (pivotYear h.yy) h.month ∧
      1 ≤ h.hour12 ∧ h.hour12 ≤ 12 ∧ h.minute ≤ 59 ∧ h.second ≤ 60 then
    some (tsKey (pivotYear h.yy) h.month h.day (hour24 h.hour12 h.pm)
      h.minute h.second)
  else none

/-- The message emitted for the pending header when a new header line or
the end of the input is reached (nothing is pending in the initial state). -/
def emitPending (cur : Option (Nat × List Char)) (buf : List Char) :
    List Message :=
  match cur with
  | none => []
  | some (ts, a) => [⟨ts, a, trim buf⟩]

/-- The extraction loop of `parse` over the list of lines: `cur` is the
pending header (timestamp and author), `buf` the pending body, `acc` the
messages already emitted.  A failed date parse aborts the whole run. -/
def parseLinesGo : List (List Char) → Option (Nat × List Char) →
    List Char → List Message → Option (List Message)
  | [], cur, buf, acc => some (acc ++ emitPending cur buf)
  | l :: rest, cur, buf, acc =>
    match matchHeader l with
    | none => parseLinesGo rest cur (buf ++ '\n' :: l) acc
    | some h =>
      match headerTimestamp h with
      | none => none
      | some ts =>
        parseLinesGo rest (some (ts, h.author)) h.rest
          (acc ++ emitPending cur buf)

/-- Model of `fn parse(content: &str) -> Vec<Message>`; `none` models the
panic on an unparseable date in a header-shaped line (no messages are
returned in that case, the local vector is dropped). -/
def parse (content : List Char) : Option (List Message) :=
  parseLinesGo (rustLines content) none [] []

/-- Idealized `f32` value: a finite float is an exact rational, kept as a
fraction of naturals in lowest terms (every number this program divides is
a nonnegative count).  `0.0 / 0.0` is `nan` and `x / 0.0` with `x > 0` is
`inf`; those are the exact IEEE 754 results, independent of rounding. -/
inductive FVal where
  | fin (num den : Nat)
  | nan
  | inf
deriving DecidableEq, Repr

/-- Exact model of `a as f32 / b as f32` for counts `a ≤ some total b`:
the quotient in lowest terms, or `nan`/`inf` on a zero divisor. -/
def fdiv (a b : Nat) : FVal :=
  if b = 0 then (if a = 0 then FVal.nan else FVal.inf)
  else FVal.fin (a / Nat.gcd a b) (b / Nat.gcd a b)

/-- Exact model of `x * 100.0` on an idealized `f32` value. -/
def fmul100 : FVal → FVal
  | FVal.fin n d => FVal.fin (n * 100 / Nat.gcd (n * 100) d) (d / Nat.gcd (n * 100) d)
  | v => v

/-- The rational value of a finite idealized float, `none` for `nan` and
`inf`. -/
def ratOf : FVal → Option ℚ
  | FVal.fin n d => some ((n : ℚ) / (d : ℚ))
  | _ => none

/-- A per-author statistics record, mirroring `struct Stat`. -/
@[ext]
structure Stat where
  user : List Char
  num_messages : Nat
  num_words : Nat
  first_message : Nat
  percent_messages : FVal
  percent_words : FVal
deriving DecidableEq, Repr

/-- Word count of one message's text. -/
def wordsOf (m : Message) : Nat := countWords m.text

/-- `total_words` of `compute_stats`: the sum of the word counts. -/
def totalWords (msgs : List Message) : Nat := (msgs.map wordsOf).sum

/-- The entry inserted by `or_insert_with` for a new author. -/
def statInit (m : Message) : Stat :=
  ⟨m.author, 0, 0, m.timestamp, FVal.fin 0 1, FVal.fin 0 1⟩

/-- The per-message update of an author's entry: increment the message
count, add the word count, and lower `first_message` on a strictly earlier
timestamp. -/
def updateStat (s : Stat) (m : Message) : Stat :=
  { s with
    num_messages := s.num_messages + 1,
    num_words := s.num_words + wordsOf m,
    first_message :=
      if m.timestamp < s.first_message then m.timestamp else s.first_message }

/-- One step of the aggregation loop on the author map, which is embedded
as an association list keyed by `user` (insertion at the tail mirrors a
fresh `entry`). -/
def insertMsg : List Stat → Message → List Stat
  | [], m => [updateStat (statInit m) m]
  | s :: rest, m =>
    if s.user = m.author then updateStat s m :: rest
    else s :: insertMsg rest m

/-- The author map after the aggregation loop, in first-insertion order. -/
def statsFold (msgs : List Message) : List Stat := msgs.foldl insertMsg []

/-- The percentage pass over one entry, with the totals of the whole
message slice: `num / total * 100` computed in idealized `f32`, with no
guard on a zero total (exactly the Rust expression). -/
def setPercents (tm tw : Nat) (s : Stat) : Stat :=
  { s with
    percent_messages := fmul100 (fdiv s.num_messages tm),
    percent_words := fmul100 (fdiv s.num_words tw) }

/-- Model of `fn compute_stats(messages: &[Message]) -> Vec<Stat>`.
`HashMap::into_values` yields the entries in an unspecified order; the
embedding uses first-insertion order, and every theorem stated about
`compute_stats` is insensitive to the order of the returned list. -/
def compute_stats (msgs : List Message) : List Stat :=
  (statsFold msgs).map (setPercents msgs.length (totalWords msgs))

/-- Lookup of an author's entry in a stat list (first match). -/
def findStat : List Stat → List Char → Option Stat
  | [], _ => none
  | s :: rest, a => if s.user = a then some s else findStat rest a

/-- The aggregation step restricted to one author's messages, with the
running entry as an `Option`. -/
def aggStep (o : Option Stat) (m : Message) : Option Stat :=
  some (updateStat (o.getD (statInit m)) m)

/-- Folding `aggStep` over a message list. -/
def aggAll (l : List Message) (o : Option Stat) : Option Stat :=
  l.foldl aggStep o

/-- The aggregation loop as seen by a single author `a`: messages by other
authors leave the entry unchanged. -/
def aggOpt (a : List Char) (msgs : List Message) (o : Option Stat) :
    Option Stat :=
  msgs.foldl (fun o m => if m.author = a then aggStep o m else o) o

/-- The `--sort` enum. -/
inductive SortBy where
  | messages
  | words
deriving DecidableEq, Repr

/-- The primary sort key selected by `--sort`. -/
def keyOf : SortBy → Stat → Nat
  | SortBy.messages, s => s.num_messages
  | SortBy.words, s => s.num_words

/-- Insertion into a sorted list with comparator `le`: the element goes in
front of the first entry it relates to.  With a reflexive-on-ties
comparator and `sortLe` this is a stable sort. -/
def insertLe {α : Type} (le : α → α → Bool) (a : α) : List α → List α
  | [] => [a]
  | b :: l => if le a b then a :: b :: l else b :: insertLe le a l

/-- Stable insertion sort with comparator `le` (the same function as
Rust's stable `sort_by_key`, which any stable sort by the same key
computes). -/
def sortLe {α : Type} (le : α → α → Bool) (l : List α) : List α :=
  l.foldr (insertLe le) []

/-- Model of the sorting step of `print_stats`:
`stats.sort_by_key(|s| Reverse(key))` is a stable sort, descending in the
primary key; ties keep the order of the input vector.  The returned list
is the top-to-bottom print order. -/
def print_stats (sort : SortBy) (stats : List Stat) : List Stat :=
  sortLe (fun a b => decide (keyOf sort b ≤ keyOf sort a)) stats

/-- Model of `msg.timestamp.year()` on the `tsKey` encoding: the factor
`13 * 32 * 24 * 60 * 61 = 36541440` separates the year from the bounded
lower fields. -/
def yearOf (t : Nat) : Nat := t / 36541440

/-- One step of `grouped.entry(msg.timestamp.year()).or_default().push(..)`
on an association list in first-seen order; pushing at the tail of the
entry keeps each group in input order. -/
def pushYear (acc : List (Nat × List Message)) (m : Message) :
    List (Nat × List Message) :=
  match acc with
  | [] => [(yearOf m.timestamp, [m])]
  | (y, ms) :: rest =>
    if y = yearOf m.timestamp then (y, ms ++ [m]) :: rest
    else (y, ms) :: pushYear rest m

/-- The year map after the grouping loop of `main`. -/
def groupFold (msgs : List Message) : List (Nat × List Message) :=
  msgs.foldl pushYear []

/-- Lookup of a year's group. -/
def groupLookup : List (Nat × List Message) → Nat → Option (List Message)
  | [], _ => none
  | (y, ms) :: rest, z => if y = z then some ms else groupLookup rest z

/-- Helper describing how one author's filtered messages extend a partial
group lookup (used to characterize `groupFold`). -/
def glueGroup (o : Option (List Message)) (f : List Message) :
    Option (List Message) :=
  if f.isEmpty then o else some (o.getD [] ++ f)

/-- Model of collecting the `HashMap` groups into a `BTreeMap` and
iterating: the groups sorted by year, ascending. -/
def yearGroups (msgs : List Message) : List (Nat × List Message) :=
  sortLe (fun p q => decide (p.1 ≤ q.1)) (groupFold msgs)

/-- The timestamp and author extracted from a line, when it is a header
line with a parseable date-time. -/
def headerInfo (l : List Char) : Option (Nat × List Char) :=
  (matchHeader l).bind fun h => (headerTimestamp h).map fun ts => (ts, h.author)

/-- Projection of a message to the data coming from its header line. -/
def projTA (m : Message) : Nat × List Char := (m.timestamp, m.author)

/-- Replace every LF by CRLF (the transformation of claim C10). -/
def replaceLF : List Char → List Char
  | [] => []
  | c :: rest => (if c = '\n' then ['\r', '\n'] else [c]) ++ replaceLF rest

/-- Concrete example data used by the witnesses below. -/
def exMsgA : Message := ⟨0, ['A'], []⟩

def exMsgs5 : List Message := [⟨5, ['A'], []⟩, ⟨3, ['A'], []⟩]

def exStat5 : Stat := ⟨['A'], 2, 0, 3, FVal.fin 100 1, FVal.nan⟩

def exStat1 : Stat := ⟨['A'], 1, 0, 0, FVal.fin 100 1, FVal.nan⟩

def exM7 : List Message := [⟨5, ['A'], ['x']⟩, ⟨3, ['B'], []⟩]

def exM7s : List Message := [⟨3, ['B'], []⟩, ⟨5, ['A'], ['x']⟩]

def exStatA : Stat := ⟨['A'], 1, 0, 0, FVal.fin 0 1, FVal.fin 0 1⟩

def exStatB : Stat := ⟨['B'], 1, 5, 0, FVal.fin 0 1, FVal.fin 0 1⟩

def exM8 : List Message := [⟨36541440, ['B'], []⟩, ⟨0, ['A'], []⟩]

def exContent6 : List Char :=
  "[1/2/24, 9:05:07".toList ++ [nbsp] ++ "AM] A: hi".toList ++ ['\n'] ++
  "more text".toList ++ ['\n'] ++
  "[1/2/24, 9:06:00".toList ++ [nbsp] ++ "AM] B: yo".toList

def exMsgs6 : List Message := (parse exContent6).getD []

def exLine9 : List Char :=
  "[13/2/24, 9:05:07".toList ++ [nbsp] ++ "AM] A: hi".toList

def exContent9 : List Char := exLine9 ++ ['\n'] ++ "tail".toList

def exHdr9 : HeaderMatch :=
  (matchHeader exLine9).getD ⟨0, 0, 0, 0, 0, 0, false, [], []⟩

def exLine3 : List Char :=
  "[1/2/24, 9:05:07".toList ++ [nbsp] ++ "AM] : hello".toList

def exHdr3 : HeaderMatch :=
  (matchHeader exLine3).getD ⟨0, 0, 0, 0, 0, 0, false, [], []⟩

def exContent10 : List Char :=
  "[1/2/24, 9:05:07".toList ++ [nbsp] ++ "AM] A: hi".toList ++
  ['\r', '\n'] ++ "cont".toList

def exContent10ok : List Char :=
  "[1/2/24, 9:05:07".toList ++ [nbsp] ++ "AM] A: hi".toList ++ ['\n'] ++
  "cont".toList

/-! ### Aggregation lemmas -/

theorem updateStat_user (s : Stat) (m : Message) :
    (updateStat s m).user = s.user := rfl

theorem setPercents_user (tm tw : Nat) (s : Stat) :
    (setPercents tm tw s).user = s.user := rfl

theorem setPercents_nm (tm tw : Nat) (s : Stat) :
    (setPercents tm tw s).num_messages = s.num_messages := rfl

theorem setPercents_nw (tm tw : Nat) (s : Stat) :
    (setPercents tm tw s).num_words = s.num_words := rfl

theorem setPercents_first (tm tw : Nat) (s : Stat) :
    (setPercents tm tw s).first_message = s.first_message := rfl

theorem setPercents_pw (tm tw : Nat) (s : Stat) :
    (setPercents tm tw s).percent_words = fmul100 (fdiv s.num_words tw) :=
  rfl

theorem findStat_insertMsg (acc : List Stat) (m : Message) (a : List Char) :
    findStat (insertMsg acc m) a =
      if m.author = a then aggStep (findStat acc a) m else findStat acc a := by
  induction acc with
  | nil =>
    by_cases ha : m.author = a <;>
      simp [insertMsg, findStat, aggStep, updateStat_user, statInit, ha]
  | cons s rest ih =>
    by_cases hs : s.user = m.author
    · simp only [insertMsg, if_pos hs]
      by_cases ha : m.author = a
      · have hsa : s.user = a := hs.trans ha
        simp only [findStat, updateStat_user, if_pos hsa, if_pos ha,
          aggStep]
        rfl
      · have hsa : ¬ s.user = a := fun h => ha (hs.symm.trans h)
        simp only [findStat, updateStat_user, if_neg hsa, if_neg ha]
    · simp only [insertMsg, if_neg hs]
      by_cases hu : s.user = a
      · have ha : ¬ m.author = a := fun h => hs (hu.trans h.symm)
        simp only [findStat, if_pos hu, if_neg ha]
      · simp only [findStat, if_neg hu, ih]

theorem findStat_foldl (msgs : List Message) :
    ∀ (acc : List Stat) (a : List Char),
      findStat (List.foldl insertMsg acc msgs) a =
        aggOpt a msgs (findStat acc a) := by
  induction msgs with
  | nil => intro acc a; rfl
  | cons m rest ih =>
    intro acc a
    have h1 : List.foldl insertMsg acc (m :: rest) =
        List.foldl insertMsg (insertMsg acc m) rest := rfl
    rw [h1, ih, findStat_insertMsg]
    simp [aggOpt, List.foldl]

theorem aggOpt_filter (a : List Char) (msgs : List Message) :
    ∀ o, aggOpt a msgs o =
      aggAll (msgs.filter fun m => decide (m.author = a)) o := by
  induction msgs with
  | nil => intro o; rfl
  | cons m rest ih =>
    intro o
    by_cases hm : m.author = a
    · simp [aggOpt, aggAll, List.foldl, List.filter_cons, hm] at ih ⊢
      exact ih _
    · simp [aggOpt, aggAll, List.foldl, List.filter_cons, hm] at ih ⊢
      exact ih o

theorem aggAll_some_props (l : List Message) :
    ∀ s : Stat, ∃ s',
      aggAll l (some s) = some s' ∧
      s'.user = s.user ∧
      s'.num_messages = s.num_messages + l.length ∧
      s'.num_words = s.num_words + (l.map wordsOf).sum ∧
      (s'.first_message = s.first_message ∨
        s'.first_message ∈ l.map Message.timestamp) ∧
      s'.first_message ≤ s.first_message ∧
      (∀ t ∈ l.map Message.timestamp, s'.first_message ≤ t) ∧
      s'.percent_messages = s.percent_messages ∧
      s'.percent_words = s.percent_words := by
  induction l with
  | nil =>
    intro s
    exact ⟨s, rfl, rfl, by simp, by simp, Or.inl rfl, le_refl _,
      by simp, rfl, rfl⟩
  | cons m rest ih =>
    intro s
    obtain ⟨s', h1, hu, hm, hw, hfm, hfl, hfb, hp1, hp2⟩ :=
      ih (updateStat s m)
    have hstep : aggAll (m :: rest) (some s) =
        aggAll rest (some (updateStat s m)) := rfl
    have hule : (updateStat s m).first_message ≤ s.first_message ∧
        (updateStat s m).first_message ≤ m.timestamp ∧
        ((updateStat s m).first_message = m.timestamp ∨
          (updateStat s m).first_message = s.first_message) := by
      simp only [updateStat]
      split <;> omega
    refine ⟨s', hstep ▸ h1, hu.trans rfl, ?_, ?_, ?_, ?_, ?_, hp1, hp2⟩
    · simp only [updateStat] at hm
      simp only [List.length_cons]
      omega
    · simp only [updateStat] at hw
      simp only [List.map_cons, List.sum_cons]
      omega
    · rcases hfm with h | h
      · rcases hule.2.2 with h2 | h2
        · exact Or.inr (by simp [h, h2])
        · exact Or.inl (h.trans h2)
      · exact Or.inr (by simp [h])
    · exact hfl.trans hule.1
    · intro t ht
      simp only [List.map_cons, List.mem_cons] at ht
      rcases ht with rfl | ht
      · exact hfl.trans hule.2.1
      · exact hfb t ht

theorem aggAll_cons_props (m : Message) (l : List Message) :
    ∃ s', aggAll (m :: l) none = some s' ∧
      s'.user = m.author ∧
      s'.num_messages = (m :: l).length ∧
      s'.num_words = ((m :: l).map wordsOf).sum ∧
      s'.first_message ∈ (m :: l).map Message.timestamp ∧
      (∀ t ∈ (m :: l).map Message.timestamp, s'.first_message ≤ t) ∧
      s'.percent_messages = FVal.fin 0 1 ∧
      s'.percent_words = FVal.fin 0 1 := by
  have hstep : aggAll (m :: l) none = aggAll l
      (some (⟨m.author, 1, wordsOf m, m.timestamp, FVal.fin 0 1,
        FVal.fin 0 1⟩ : Stat)) := by
    simp [aggAll, List.foldl, aggStep, updateStat, statInit]
  obtain ⟨s', h1, hu, hm, hw, hfm, hfl, hfb, hp1, hp2⟩ :=
    aggAll_some_props l
      ⟨m.author, 1, wordsOf m, m.timestamp, FVal.fin 0 1, FVal.fin 0 1⟩
  refine ⟨s', hstep.trans h1, hu, ?_, ?_, ?_, ?_, hp1, hp2⟩
  · simp only [List.length_cons]
    simp only at hm
    omega
  · simp only [List.map_cons, List.sum_cons]
    simp only at hw
    omega
  · rcases hfm with h | h
    · simp only [List.map_cons, List.mem_cons]
      exact Or.inl (by simpa using h)
    · simp [List.mem_cons, h]
  · intro t ht
    simp only [List.map_cons, List.mem_cons] at ht
    rcases ht with rfl | ht
    · simpa using hfl
    · exact hfb t ht

theorem findStat_statsFold (msgs : List Message) (a : List Char) :
    findStat (statsFold msgs) a =
      aggAll (msgs.filter fun m => decide (m.author = a)) none := by
  have h0 : findStat ([] : List Stat) a = none := rfl
  rw [statsFold, findStat_foldl, h0, aggOpt_filter]

theorem insertMsg_users (acc : List Stat) (m : Message) :
    (insertMsg acc m).map Stat.user =
      if (findStat acc m.author).isSome then acc.map Stat.user
      else acc.map Stat.user ++ [m.author] := by
  induction acc with
  | nil => simp [insertMsg, findStat, updateStat_user, statInit]
  | cons s rest ih =>
    by_cases hs : s.user = m.author
    · simp [insertMsg, findStat, if_pos hs, updateStat_user, hs]
    · simp only [insertMsg, if_neg hs, findStat, List.map_cons, ih]
      split <;> simp

theorem findStat_none_iff (l : List Stat) (a : List Char) :
    findStat l a = none ↔ a ∉ l.map Stat.user := by
  induction l with
  | nil => simp [findStat]
  | cons s rest ih =>
    by_cases hs : s.user = a
    · simp [findStat, if_pos hs, hs]
    · have hs' : ¬ a = s.user := fun h => hs h.symm
      simp [findStat, if_neg hs, ih, hs']

theorem statsFold_users_nodup (msgs : List Message) :
    ((statsFold msgs).map Stat.user).Nodup := by
  rw [statsFold]
  have h : ∀ (ms : List Message) (acc : List Stat),
      (acc.map Stat.user).Nodup →
      ((List.foldl insertMsg acc ms).map Stat.user).Nodup := by
    intro ms
    induction ms with
    | nil => intro acc h; exact h
    | cons m rest ih =>
      intro acc hacc
      have h1 : List.foldl insertMsg acc (m :: rest) =
          List.foldl insertMsg (insertMsg acc m) rest := rfl
      rw [h1]
      apply ih
      rw [insertMsg_users]
      cases hfs : findStat acc m.author with
      | some s => simpa using hacc
      | none =>
        have hnm : m.author ∉ acc.map Stat.user :=
          (findStat_none_iff acc m.author).mp hfs
        simp only [Option.isSome_none, Bool.false_eq_true, if_false]
        simp [List.nodup_append, hacc, hnm]
  exact h msgs [] (by simp)

theorem mem_findStat (l : List Stat) (hn : (l.map Stat.user).Nodup)
    (s : Stat) (hs : s ∈ l) : findStat l s.user = some s := by
  induction l with
  | nil => cases hs
  | cons t rest ih =>
    rw [List.mem_cons] at hs
    rcases hs with rfl | hs
    · simp [findStat]
    · simp only [List.map_cons, List.nodup_cons] at hn
      have hne : ¬ t.user = s.user := by
        intro h
        exact hn.1 (h ▸ List.mem_map_of_mem Stat.user hs)
      simp only [findStat, if_neg hne]
      exact ih hn.2 hs

theorem findStat_some_mem (l : List Stat) (a : List Char) (s : Stat)
    (h : findStat l a = some s) : s ∈ l ∧ s.user = a := by
  induction l with
  | nil => cases h
  | cons t rest ih =>
    by_cases ht : t.user = a
    · simp only [findStat, if_pos ht] at h
      cases h
      exact ⟨List.mem_cons_self _ _, ht⟩
    · simp only [findStat, if_neg ht] at h
      obtain ⟨h1, h2⟩ := ih h
      exact ⟨List.mem_cons_of_mem _ h1, h2⟩

theorem mem_compute_stats (msgs : List Message) (s : Stat) :
    s ∈ compute_stats msgs ↔
      ∃ s₀, s₀ ∈ statsFold msgs ∧
        s = setPercents msgs.length (totalWords msgs) s₀ := by
  simp only [compute_stats, List.mem_map]
  constructor
  · rintro ⟨s₀, h1, rfl⟩; exact ⟨s₀, h1, rfl⟩
  · rintro ⟨s₀, h1, rfl⟩; exact ⟨s₀, h1, rfl⟩

theorem insertMsg_sum_nm (acc : List Stat) (m : Message) :
    ((insertMsg acc m).map Stat.num_messages).sum =
      (acc.map Stat.num_messages).sum + 1 := by
  induction acc with
  | nil => simp [insertMsg, updateStat, statInit]
  | cons s rest ih =>
    by_cases hs : s.user = m.author
    · simp only [insertMsg, if_pos hs, List.map_cons, List.sum_cons,
        updateStat]
      omega
    · simp only [insertMsg, if_neg hs, List.map_cons, List.sum_cons, ih]
      omega

theorem insertMsg_sum_nw (acc : List Stat) (m : Message) :
    ((insertMsg acc m).map Stat.num_words).sum =
      (acc.map Stat.num_words).sum + wordsOf m := by
  induction acc with
  | nil => simp [insertMsg, updateStat, statInit]
  | cons s rest ih =>
    by_cases hs : s.user = m.author
    · simp only [insertMsg, if_pos hs, List.map_cons, List.sum_cons,
        updateStat]
      omega
    · simp only [insertMsg, if_neg hs, List.map_cons, List.sum_cons, ih]
      omega

theorem statsFold_sums (msgs : List Message) :
    ((statsFold msgs).map Stat.num_messages).sum = msgs.length ∧
    ((statsFold msgs).map Stat.num_words).sum = totalWords msgs := by
  rw [statsFold]
  have h : ∀ (ms : List Message) (acc : List Stat),
      ((List.foldl insertMsg acc ms).map Stat.num_messages).sum =
        (acc.map Stat.num_messages).sum + ms.length ∧
      ((List.foldl insertMsg acc ms).map Stat.num_words).sum =
        (acc.map Stat.num_words).sum + totalWords ms := by
    intro ms
    induction ms with
    | nil => intro acc; simp [totalWords]
    | cons m rest ih =>
      intro acc
      have h1 : List.foldl insertMsg acc (m :: rest) =
          List.foldl insertMsg (insertMsg acc m) rest := rfl
      obtain ⟨ih1, ih2⟩ := ih (insertMsg acc m)
      rw [h1]
      constructor
      · rw [ih1, insertMsg_sum_nm]
        simp only [List.length_cons]
        omega
      · rw [ih2, insertMsg_sum_nw]
        simp only [totalWords, List.map_cons, List.sum_cons]
        omega
  have := h msgs []
  simpa using this

/-- Claim C4: count conservation.  For any message sequence, the
`num_messages` of the produced stats sum to the number of messages, and
the `num_words` sum to the total word count over all texts. -/
theorem C4_count_conservation (msgs : List Message) :
    ((compute_stats msgs).map Stat.num_messages).sum = msgs.length ∧
    ((compute_stats msgs).map Stat.num_words).sum = totalWords msgs := by
  have hm : (compute_stats msgs).map Stat.num_messages =
      (statsFold msgs).map Stat.num_messages := by
    simp only [compute_stats, List.map_map]
    rfl
  have hw : (compute_stats msgs).map Stat.num_words =
      (statsFold msgs).map Stat.num_words := by
    simp only [compute_stats, List.map_map]
    rfl
  rw [hm, hw]
  exact statsFold_sums msgs

theorem statsFold_char (msgs : List Message) (s₀ : Stat)
    (hmem : s₀ ∈ statsFold msgs) :
    ∃ m0 ftail,
      msgs.filter (fun m => decide (m.author = s₀.user)) = m0 :: ftail ∧
      s₀.user = m0.author ∧
      s₀.num_messages = (m0 :: ftail).length ∧
      s₀.num_words = ((m0 :: ftail).map wordsOf).sum ∧
      s₀.first_message ∈ (m0 :: ftail).map Message.timestamp ∧
      (∀ t ∈ (m0 :: ftail).map Message.timestamp, s₀.first_message ≤ t) ∧
      s₀.percent_messages = FVal.fin 0 1 ∧
      s₀.percent_words = FVal.fin 0 1 := by
  have hfind : findStat (statsFold msgs) s₀.user = some s₀ :=
    mem_findStat _ (statsFold_users_nodup msgs) s₀ hmem
  have hchar := findStat_statsFold msgs s₀.user
  rw [hfind] at hchar
  cases hfil : msgs.filter (fun m => decide (m.author = s₀.user)) with
  | nil =>
    rw [hfil] at hchar
    simp [aggAll] at hchar
  | cons m0 ftail =>
    rw [hfil] at hchar
    obtain ⟨s', h1, hu, hm, hw, hfm, hfb, hp1, hp2⟩ :=
      aggAll_cons_props m0 ftail
    rw [h1] at hchar
    injection hchar with heq
    subst heq
    exact ⟨m0, ftail, rfl, hu, hm, hw, hfm, hfb, hp1, hp2⟩

/-- Claim C5: first-seen minimality.  For every stat `s` produced from a
message sequence and every message of that sequence by the same author,
`s.first_message` is at most the message's timestamp, and it is attained
by at least one such message. -/
theorem C5_first_seen (msgs : List Message) (s : Stat)
    (hs : s ∈ compute_stats msgs) :
    (∀ m ∈ msgs, m.author = s.user → s.first_message ≤ m.timestamp) ∧
    ∃ m ∈ msgs, m.author = s.user ∧ m.timestamp = s.first_message := by
  obtain ⟨s₀, hmem, rfl⟩ := (mem_compute_stats msgs s).mp hs
  simp only [setPercents_user, setPercents_first]
  obtain ⟨m0, ftail, hfil, _, _, _, hfm, hfb, _, _⟩ :=
    statsFold_char msgs s₀ hmem
  constructor
  · intro m hm hma
    have hmf : m ∈ msgs.filter (fun m => decide (m.author = s₀.user)) :=
      List.mem_filter.mpr ⟨hm, by simpa using hma⟩
    rw [hfil] at hmf
    exact hfb _ (List.mem_map_of_mem Message.timestamp hmf)
  · obtain ⟨m', hm'mem, hts⟩ := List.mem_map.mp hfm
    have hmf : m' ∈ msgs.filter (fun m => decide (m.author = s₀.user)) :=
      hfil ▸ hm'mem
    obtain ⟨hmsgs, hdec⟩ := List.mem_filter.mp hmf
    exact ⟨m', hmsgs, by simpa using hdec, hts⟩

theorem C5_witness :
    exStat5.first_message ≤ (Message.mk 5 ['A'] []).timestamp ∧
    ∃ m ∈ exMsgs5, m.author = exStat5.user ∧
      m.timestamp = exStat5.first_message :=
  ⟨(C5_first_seen exMsgs5 exStat5 (by decide)).1 ⟨5, ['A'], []⟩ (by decide)
      (by decide),
    (C5_first_seen exMsgs5 exStat5 (by decide)).2⟩

theorem aggAll_perm (a : List Char) (l l' : List Message) (hp : l.Perm l')
    (hl : ∀ m ∈ l, m.author = a) : aggAll l none = aggAll l' none := by
  cases l with
  | nil =>
    rw [hp.symm.eq_nil]
  | cons m r =>
    cases l' with
    | nil => exact absurd hp.eq_nil (by simp)
    | cons m' r' =>
      obtain ⟨s1, h1, hu1, hm1, hw1, hfm1, hfb1, hp11, hp12⟩ :=
        aggAll_cons_props m r
      obtain ⟨s2, h2, hu2, hm2, hw2, hfm2, hfb2, hp21, hp22⟩ :=
        aggAll_cons_props m' r'
      rw [h1, h2]
      have hus : s1.user = s2.user := by
        rw [hu1, hu2, hl m (List.mem_cons_self m r),
          hl m' (hp.symm.subset (List.mem_cons_self m' r'))]
      have hms : s1.num_messages = s2.num_messages := by
        rw [hm1, hm2, hp.length_eq]
      have hws : s1.num_words = s2.num_words := by
        rw [hw1, hw2, (hp.map wordsOf).sum_eq]
      have hfs : s1.first_message = s2.first_message := by
        apply le_antisymm
        · exact hfb1 _ ((hp.map Message.timestamp).mem_iff.mpr hfm2)
        · exact hfb2 _ ((hp.map Message.timestamp).mem_iff.mp hfm1)
      have hp1s : s1.percent_messages = s2.percent_messages := by
        rw [hp11, hp21]
      have hp2s : s1.percent_words = s2.percent_words := by
        rw [hp12, hp22]
      exact congrArg some (Stat.ext hus hms hws hfs hp1s hp2s)

theorem findStat_map_setPercents (tm tw : Nat) (l : List Stat)
    (a : List Char) :
    findStat (l.map (setPercents tm tw)) a =
      (findStat l a).map (setPercents tm tw) := by
  induction l with
  | nil => rfl
  | cons s rest ih =>
    by_cases hs : s.user = a
    · simp [findStat, setPercents_user, hs]
    · simp [findStat, setPercents_user, hs, ih]

/-- Claim C7: order independence.  Aggregating any permutation of a
message sequence yields, for every author, the same stat record (counts,
percentages and first-seen timestamp). -/
theorem C7_order_independence (M M' : List Message) (hp : M.Perm M')
    (a : List Char) :
    findStat (compute_stats M) a = findStat (compute_stats M') a := by
  have hlen : M.length = M'.length := hp.length_eq
  have htw : totalWords M = totalWords M' := by
    simp only [totalWords]
    exact (hp.map wordsOf).sum_eq
  simp only [compute_stats, findStat_map_setPercents, hlen, htw]
  congr 1
  rw [findStat_statsFold, findStat_statsFold]
  apply aggAll_perm a
  · exact hp.filter _
  · intro m hm
    have := List.mem_filter.mp hm
    simpa using this.2

theorem C7_witness :
    findStat (compute_stats exM7) ['A'] =
      findStat (compute_stats exM7s) ['A'] :=
  C7_order_independence exM7 exM7s
    (List.Perm.swap (⟨3, ['B'], []⟩ : Message) (⟨5, ['A'], ['x']⟩ : Message)
      []) ['A']

theorem div_gcd_ne_zero (a b : Nat) (hb : b ≠ 0) :
    b / Nat.gcd a b ≠ 0 := by
  have hg : Nat.gcd a b ≠ 0 := fun h => hb (Nat.gcd_eq_zero_iff.mp h).2
  have hpos : 0 < b / Nat.gcd a b :=
    Nat.div_pos (Nat.le_of_dvd (Nat.pos_of_ne_zero hb) (Nat.gcd_dvd_right a b))
      (Nat.pos_of_ne_zero hg)
  omega

theorem div_mul_eq_mul_div_of_dvd (g a b : Nat) (hga : g ∣ a) (hgb : g ∣ b)
    (hg : g ≠ 0) : a / g * b = a * (b / g) := by
  obtain ⟨a', rfl⟩ := hga
  obtain ⟨b', rfl⟩ := hgb
  rw [Nat.mul_div_cancel_left _ (Nat.pos_of_ne_zero hg),
    Nat.mul_div_cancel_left _ (Nat.pos_of_ne_zero hg)]
  ring

theorem cast_div_gcd (a b : Nat) (hb : b ≠ 0) :
    ((a / Nat.gcd a b : Nat) : ℚ) / ((b / Nat.gcd a b : Nat) : ℚ) =
      (a : ℚ) / (b : ℚ) := by
  have hg : Nat.gcd a b ≠ 0 := fun h => hb (Nat.gcd_eq_zero_iff.mp h).2
  have hkey : a / Nat.gcd a b * b = a * (b / Nat.gcd a b) :=
    div_mul_eq_mul_div_of_dvd (Nat.gcd a b) a b (Nat.gcd_dvd_left a b)
      (Nat.gcd_dvd_right a b) hg
  rw [div_eq_div_iff (Nat.cast_ne_zero.mpr (div_gcd_ne_zero a b hb))
    (Nat.cast_ne_zero.mpr hb)]
  exact_mod_cast congrArg (fun n : Nat => (n : ℚ)) hkey

theorem ratOf_fdiv_fmul100 (n w : Nat) (hw : w ≠ 0) :
    ratOf (fmul100 (fdiv n w)) = some ((n : ℚ) / (w : ℚ) * 100) := by
  rw [fdiv, if_neg hw]
  have hd1 : w / Nat.gcd n w ≠ 0 := div_gcd_ne_zero n w hw
  simp only [fmul100, ratOf, Option.some.injEq]
  rw [cast_div_gcd _ _ hd1]
  rw [Nat.cast_mul]
  rw [mul_comm ((n / Nat.gcd n w : Nat) : ℚ) ((100 : Nat) : ℚ),
    mul_div_assoc, cast_div_gcd n w hw]
  push_cast
  ring

theorem statsFold_nw_zero (msgs : List Message) (h : totalWords msgs = 0)
    (s₀ : Stat) (hmem : s₀ ∈ statsFold msgs) : s₀.num_words = 0 := by
  obtain ⟨m0, ftail, hfil, _, _, hw, _, _, _, _⟩ :=
    statsFold_char msgs s₀ hmem
  rw [hw]
  have hall : ∀ m ∈ msgs, wordsOf m = 0 := by
    intro m hm
    have := List.sum_eq_zero_iff.mp h (wordsOf m)
      (List.mem_map_of_mem wordsOf hm)
    exact this
  apply List.sum_eq_zero
  intro x hx
  obtain ⟨m, hmmem, rfl⟩ := List.mem_map.mp hx
  have : m ∈ msgs := List.mem_of_mem_filter (hfil ▸ hmmem)
  exact hall m this

/-- Claim C1, counterexample: a single message with an empty text gives a
zero total word count, and the produced stat's `percent_words` is `NaN`
(the code computes `0.0 / 0.0 * 100.0`), not `0`. -/
theorem C1_counterexample :
    totalWords [exMsgA] = 0 ∧
    (compute_stats [exMsgA]).map Stat.percent_words = [FVal.nan] ∧
    FVal.nan ≠ FVal.fin 0 1 := by decide

/-- Claim C1 (amended): `percent_words` is `num_words / total_words * 100`
with no guard on the divisor; when `total_words = 0` the value is `NaN`
(the exact IEEE result of `0.0 / 0.0`, every entry having zero words
then), not `0`, and when `total_words > 0` it is the exact quotient times
100. -/
theorem C1_percent_words (msgs : List Message) (s : Stat)
    (hs : s ∈ compute_stats msgs) :
    (totalWords msgs = 0 → s.percent_words = FVal.nan) ∧
    (totalWords msgs ≠ 0 →
      ratOf s.percent_words =
        some ((s.num_words : ℚ) / (totalWords msgs : ℚ) * 100)) := by
  obtain ⟨s₀, hmem, rfl⟩ := (mem_compute_stats msgs s).mp hs
  constructor
  · intro h0
    have hnw : s₀.num_words = 0 := statsFold_nw_zero msgs h0 s₀ hmem
    rw [setPercents_pw, h0, hnw]
    rfl
  · intro hne
    rw [setPercents_pw, setPercents_nw, ratOf_fdiv_fmul100 _ _ hne]

theorem C1_witness :
    (totalWords [exMsgA] = 0 → exStat1.percent_words = FVal.nan) ∧
    (totalWords [exMsgA] ≠ 0 →
      ratOf exStat1.percent_words =
        some ((exStat1.num_words : ℚ) / (totalWords [exMsgA] : ℚ) * 100)) :=
  C1_percent_words [exMsgA] exStat1 (by decide)

/-! ### Presenter sorting -/

theorem insertLe_perm {α : Type} (le : α → α → Bool) (a : α) (l : List α) :
    (insertLe le a l).Perm (a :: l) := by
  induction l with
  | nil => exact List.Perm.refl _
  | cons b t ih =>
    by_cases h : le a b = true
    · simp only [insertLe, if_pos h]
      exact List.Perm.refl _
    · simp only [insertLe, if_neg h]
      exact (ih.cons b).trans (List.Perm.swap a b t)

theorem sortLe_perm {α : Type} (le : α → α → Bool) (l : List α) :
    (sortLe le l).Perm l := by
  induction l with
  | nil => exact List.Perm.nil
  | cons a t ih =>
    have h : sortLe le (a :: t) = insertLe le a (sortLe le t) := rfl
    rw [h]
    exact (insertLe_perm le a _).trans (ih.cons a)

theorem pairwise_insertLe {α : Type} (le : α → α → Bool)
    (htot : ∀ a b, le a b = false → le b a = true)
    (htr : ∀ a b c, le a b = true → le b c = true → le a c = true)
    (a : α) (l : List α) (hl : l.Pairwise (fun x y => le x y = true)) :
    (insertLe le a l).Pairwise (fun x y => le x y = true) := by
  induction l with
  | nil => simp [insertLe]
  | cons b t ih =>
    rcases List.pairwise_cons.mp hl with ⟨hb, ht⟩
    by_cases h : le a b = true
    · simp only [insertLe, if_pos h]
      refine List.Pairwise.cons ?_ hl
      intro x hx
      rw [List.mem_cons] at hx
      rcases hx with hxb | hx
      · rw [hxb]; exact h
      · exact htr a b x h (hb x hx)
    · simp only [insertLe, if_neg h]
      refine List.Pairwise.cons ?_ (ih ht)
      intro x hx
      rcases List.mem_cons.mp ((insertLe_perm le a t).mem_iff.mp hx) with
        hxa | hx
      · rw [hxa]; exact htot a b (by simpa using h)
      · exact hb x hx

theorem pairwise_sortLe {α : Type} (le : α → α → Bool)
    (htot : ∀ a b, le a b = false → le b a = true)
    (htr : ∀ a b c, le a b = true → le b c = true → le a c = true)
    (l : List α) :
    (sortLe le l).Pairwise (fun x y => le x y = true) := by
  induction l with
  | nil => simp [sortLe]
  | cons a t ih => exact pairwise_insertLe le htot htr a _ ih

theorem filter_insertLe_key {α : Type} (k : α → Nat) (v : Nat) (a : α)
    (l : List α) :
    (insertLe (fun x y => decide (k y ≤ k x)) a l).filter
        (fun x => decide (k x = v)) =
      if k a = v then a :: l.filter (fun x => decide (k x = v))
      else l.filter (fun x => decide (k x = v)) := by
  induction l with
  | nil =>
    by_cases hv : k a = v <;> simp [insertLe, List.filter, hv]
  | cons b t ih =>
    by_cases h : k b ≤ k a
    · simp only [insertLe, decide_eq_true_eq, if_pos h]
      by_cases hv : k a = v <;> simp [List.filter_cons, hv]
    · simp only [insertLe, decide_eq_true_eq, if_neg h]
      have hba : k a < k b := Nat.lt_of_not_le h
      by_cases hv : k a = v
      · have hbv : ¬ (k b = v) := by omega
        simp [List.filter_cons, hbv, ih, hv]
      · simp only [List.filter_cons, ih, if_neg hv]

theorem filter_sortLe_key {α : Type} (k : α → Nat) (v : Nat) (l : List α) :
    (sortLe (fun x y => decide (k y ≤ k x)) l).filter
        (fun x => decide (k x = v)) =
      l.filter (fun x => decide (k x = v)) := by
  induction l with
  | nil => rfl
  | cons a t ih =>
    have h : sortLe (fun x y => decide (k y ≤ k x)) (a :: t) =
        insertLe (fun x y => decide (k y ≤ k x)) a
          (sortLe (fun x y => decide (k y ≤ k x)) t) := rfl
    rw [h, filter_insertLe_key]
    by_cases hv : k a = v <;> simp [List.filter_cons, hv, ih]

/-- Claim C2, counterexample: two stats with the same `num_messages` (a
tie on the primary key) but different authors.  The two input orders are
permutations of each other - the same stat set - yet `print_stats` returns
different orders, and with the input `[B, A]` the tie is not broken by the
author ordering (`A < B` would put A first).  So the output order is not a
function of the stat set and sort key, and ties are not broken by author. -/
theorem C2_counterexample :
    List.Perm [exStatB, exStatA] [exStatA, exStatB] ∧
    print_stats SortBy.messages [exStatB, exStatA] ≠
      print_stats SortBy.messages [exStatA, exStatB] ∧
    print_stats SortBy.messages [exStatB, exStatA] = [exStatB, exStatA] :=
  ⟨List.Perm.swap exStatA exStatB [], by decide, by decide⟩

/-- Claim C2 (amended): `print_stats` stable-sorts by the primary key
descending; ties keep the order of the input stat list (which comes from
the unspecified `HashMap` iteration order), with no author tiebreak.  The
output is therefore a deterministic function of the input stat list and
the sort key: it is sorted descending, it is a permutation of the input,
and the entries sharing any primary-key value stay in input order. -/
theorem C2_sort_order (sb : SortBy) (l : List Stat) (v : Nat) :
    (print_stats sb l).Pairwise (fun a b => keyOf sb b ≤ keyOf sb a) ∧
    (print_stats sb l).Perm l ∧
    (print_stats sb l).filter (fun s => decide (keyOf sb s = v)) =
      l.filter (fun s => decide (keyOf sb s = v)) := by
  refine ⟨?_, sortLe_perm _ l, filter_sortLe_key _ _ l⟩
  have htot : ∀ a b : Stat,
      decide (keyOf sb b ≤ keyOf sb a) = false →
      decide (keyOf sb a ≤ keyOf sb b) = true := by
    intro a b h
    simp only [decide_eq_false_iff_not, not_le] at h
    simp [Nat.le_of_lt h]
  have htr : ∀ a b c : Stat,
      decide (keyOf sb b ≤ keyOf sb a) = true →
      decide (keyOf sb c ≤ keyOf sb b) = true →
      decide (keyOf sb c ≤ keyOf sb a) = true := by
    intro a b c h1 h2
    simp only [decide_eq_true_eq] at h1 h2 ⊢
    omega
  have hp := pairwise_sortLe (fun a b => decide (keyOf sb b ≤ keyOf sb a))
    htot htr l
  exact hp.imp (fun h => of_decide_eq_true h)

/-! ### Year grouping -/

theorem pushYear_lookup (acc : List (Nat × List Message)) (m : Message)
    (z : Nat) :
    groupLookup (pushYear acc m) z =
      if yearOf m.timestamp = z then
        some ((groupLookup acc z).getD [] ++ [m])
      else groupLookup acc z := by
  induction acc with
  | nil =>
    by_cases hz : yearOf m.timestamp = z <;>
      simp [pushYear, groupLookup, hz]
  | cons p rest ih =>
    obtain ⟨y, ms⟩ := p
    by_cases hy : y = yearOf m.timestamp
    · simp only [pushYear, if_pos hy]
      by_cases hz : y = z
      · have h1 : yearOf m.timestamp = z := hy ▸ hz
        simp [groupLookup, if_pos hz, h1]
      · have h1 : ¬ (yearOf m.timestamp = z) := fun h => hz (hy.trans h)
        simp [groupLookup, if_neg hz, h1]
    · simp only [pushYear, if_neg hy]
      by_cases hz : y = z
      · have h1 : ¬ (yearOf m.timestamp = z) := fun h => hy (hz.trans h.symm)
        simp [groupLookup, if_pos hz, h1]
      · simp [groupLookup, if_neg hz, ih]

theorem groupFold_lookup_gen (msgs : List Message) :
    ∀ (acc : List (Nat × List Message)) (z : Nat),
      groupLookup (List.foldl pushYear acc msgs) z =
        glueGroup (groupLookup acc z)
          (msgs.filter fun m => decide (yearOf m.timestamp = z)) := by
  induction msgs with
  | nil => intro acc z; simp [glueGroup, List.filter]
  | cons m rest ih =>
    intro acc z
    have h1 : List.foldl pushYear acc (m :: rest) =
        List.foldl pushYear (pushYear acc m) rest := rfl
    rw [h1, ih, pushYear_lookup]
    by_cases hz : yearOf m.timestamp = z
    · rw [if_pos hz]
      have hfc : (m :: rest).filter (fun m => decide (yearOf m.timestamp = z)) =
          m :: rest.filter (fun m => decide (yearOf m.timestamp = z)) := by
        simp [List.filter_cons, hz]
      rw [hfc]
      cases hfe : rest.filter (fun m => decide (yearOf m.timestamp = z)) with
      | nil => simp [glueGroup]
      | cons f fs => simp [glueGroup]
    · rw [if_neg hz]
      have hfc : (m :: rest).filter (fun m => decide (yearOf m.timestamp = z)) =
          rest.filter (fun m => decide (yearOf m.timestamp = z)) := by
        simp [List.filter_cons, hz]
      rw [hfc]

theorem groupFold_lookup (msgs : List Message) (z : Nat) :
    groupLookup (groupFold msgs) z =
      if (msgs.filter fun m => decide (yearOf m.timestamp = z)).isEmpty
      then none
      else some (msgs.filter fun m => decide (yearOf m.timestamp = z)) := by
  rw [groupFold, groupFold_lookup_gen]
  simp [glueGroup, groupLookup]

theorem pushYear_keys (acc : List (Nat × List Message)) (m : Message) :
    (pushYear acc m).map Prod.fst =
      if (groupLookup acc (yearOf m.timestamp)).isSome then
        acc.map Prod.fst
      else acc.map Prod.fst ++ [yearOf m.timestamp] := by
  induction acc with
  | nil => simp [pushYear, groupLookup]
  | cons p rest ih =>
    obtain ⟨y, ms⟩ := p
    by_cases hy : y = yearOf m.timestamp
    · simp [pushYear, if_pos hy, groupLookup, hy]
    · simp only [pushYear, if_neg hy, groupLookup, List.map_cons, ih]
      split <;> simp

theorem groupLookup_none_iff (l : List (Nat × List Message)) (z : Nat) :
    groupLookup l z = none ↔ z ∉ l.map Prod.fst := by
  induction l with
  | nil => simp [groupLookup]
  | cons p rest ih =>
    obtain ⟨y, ms⟩ := p
    by_cases hy : y = z
    · simp [groupLookup, if_pos hy, hy]
    · have hy' : ¬ z = y := fun h => hy h.symm
      simp [groupLookup, if_neg hy, ih, hy']

theorem groupFold_keys_nodup (msgs : List Message) :
    ((groupFold msgs).map Prod.fst).Nodup := by
  rw [groupFold]
  have h : ∀ (ms : List Message) (acc : List (Nat × List Message)),
      (acc.map Prod.fst).Nodup →
      ((List.foldl pushYear acc ms).map Prod.fst).Nodup := by
    intro ms
    induction ms with
    | nil => intro acc h; exact h
    | cons m rest ih =>
      intro acc hacc
      have h1 : List.foldl pushYear acc (m :: rest) =
          List.foldl pushYear (pushYear acc m) rest := rfl
      rw [h1]
      apply ih
      rw [pushYear_keys]
      cases hfs : groupLookup acc (yearOf m.timestamp) with
      | some ms' => simpa using hacc
      | none =>
        have hnm : yearOf m.timestamp ∉ acc.map Prod.fst :=
          (groupLookup_none_iff acc (yearOf m.timestamp)).mp hfs
        simp only [Option.isSome_none, Bool.false_eq_true, if_false]
        simp [List.nodup_append, hacc, hnm]
  exact h msgs [] (by simp)

theorem mem_groupLookup (l : List (Nat × List Message))
    (hn : (l.map Prod.fst).Nodup) (y : Nat) (ms : List Message)
    (h : (y, ms) ∈ l) : groupLookup l y = some ms := by
  induction l with
  | nil => cases h
  | cons p rest ih =>
    obtain ⟨y', ms'⟩ := p
    simp only [List.map_cons, List.nodup_cons] at hn
    rw [List.mem_cons] at h
    rcases h with h | h
    · injection h with h1 h2
      subst h1; subst h2
      simp [groupLookup]
    · have hne : ¬ y' = y := by
        intro he
        apply hn.1
        subst he
        exact List.mem_map_of_mem Prod.fst h
      simp only [groupLookup, if_neg hne]
      exact ih hn.2 h

theorem groupLookup_some_mem (l : List (Nat × List Message)) (y : Nat)
    (ms : List Message) (h : groupLookup l y = some ms) : (y, ms) ∈ l := by
  induction l with
  | nil => cases h
  | cons p rest ih =>
    obtain ⟨y', ms'⟩ := p
    by_cases hy : y' = y
    · simp only [groupLookup, if_pos hy] at h
      injection h with h1
      subst hy; subst h1
      exact List.mem_cons_self _ _
    · simp only [groupLookup, if_neg hy] at h
      exact List.mem_cons_of_mem _ (ih h)

/-- Claim C8: year partition.  The groups produced by `main`'s year
grouping are emitted in strictly ascending year order; each year's group
is exactly the input filtered to that year (in input order), so
aggregating the group equals aggregating the filtered sequence - in
particular the percentages are relative to the group's own totals; and
every message's year is represented by a group. -/
theorem C8_year_partition (msgs : List Message) :
    ((yearGroups msgs).map Prod.fst).Pairwise (· < ·) ∧
    (∀ y part, (y, part) ∈ yearGroups msgs →
      part = msgs.filter (fun m => decide (yearOf m.timestamp = y)) ∧
      compute_stats part =
        compute_stats
          (msgs.filter fun m => decide (yearOf m.timestamp = y))) ∧
    (∀ m ∈ msgs, ∃ part,
      (yearOf m.timestamp, part) ∈ yearGroups msgs) := by
  have hperm : (yearGroups msgs).Perm (groupFold msgs) :=
    sortLe_perm _ _
  have hkeys : ((yearGroups msgs).map Prod.fst).Nodup :=
    ((hperm.map Prod.fst).nodup_iff).mpr (groupFold_keys_nodup msgs)
  refine ⟨?_, ?_, ?_⟩
  · have htot : ∀ p q : Nat × List Message,
        decide (p.1 ≤ q.1) = false → decide (q.1 ≤ p.1) = true := by
      intro p q h
      simp only [decide_eq_false_iff_not, not_le] at h
      simp [Nat.le_of_lt h]
    have htr : ∀ p q r : Nat × List Message,
        decide (p.1 ≤ q.1) = true → decide (q.1 ≤ r.1) = true →
        decide (p.1 ≤ r.1) = true := by
      intro p q r h1 h2
      simp only [decide_eq_true_eq] at h1 h2 ⊢
      omega
    have hp := pairwise_sortLe
      (fun p q : Nat × List Message => decide (p.1 ≤ q.1)) htot htr
      (groupFold msgs)
    have hle : (yearGroups msgs).Pairwise (fun p q => p.1 ≤ q.1) :=
      hp.imp (fun h => of_decide_eq_true h)
    have hne : (yearGroups msgs).Pairwise (fun p q => p.1 ≠ q.1) :=
      List.pairwise_map.mp hkeys
    rw [List.pairwise_map]
    exact (hle.and hne).imp (fun h => lt_of_le_of_ne h.1 h.2)
  · intro y part hmem
    have hmem' : (y, part) ∈ groupFold msgs := hperm.mem_iff.mp hmem
    have hlook : groupLookup (groupFold msgs) y = some part :=
      mem_groupLookup _ (groupFold_keys_nodup msgs) y part hmem'
    rw [groupFold_lookup] at hlook
    by_cases he :
        (msgs.filter fun m => decide (yearOf m.timestamp = y)).isEmpty
    · rw [if_pos he] at hlook; cases hlook
    · rw [if_neg he] at hlook
      injection hlook with h
      exact ⟨h.symm, by rw [h]⟩
  · intro m hm
    have hmf : m ∈ msgs.filter
        (fun m' => decide (yearOf m'.timestamp = yearOf m.timestamp)) :=
      List.mem_filter.mpr ⟨hm, by simp⟩
    have hne : ¬ (msgs.filter
        (fun m' => decide (yearOf m'.timestamp = yearOf m.timestamp))).isEmpty := by
      intro h
      rw [List.isEmpty_iff] at h
      rw [h] at hmf
      cases hmf
    have hlook : groupLookup (groupFold msgs) (yearOf m.timestamp) =
        some (msgs.filter
          (fun m' => decide (yearOf m'.timestamp = yearOf m.timestamp))) := by
      rw [groupFold_lookup, if_neg hne]
    exact ⟨_, hperm.mem_iff.mpr (groupLookup_some_mem _ _ _ hlook)⟩

theorem C8_witness :
    [(⟨0, ['A'], []⟩ : Message)] =
        exM8.filter (fun m => decide (yearOf m.timestamp = 0)) ∧
    compute_stats [(⟨0, ['A'], []⟩ : Message)] =
      compute_stats (exM8.filter fun m => decide (yearOf m.timestamp = 0)) :=
  (C8_year_partition exM8).2.1 0 [⟨0, ['A'], []⟩] (by decide)

/-! ### Extraction lemmas -/

theorem parseLinesGo_nil (cur : Option (Nat × List Char)) (buf : List Char)
    (acc : List Message) :
    parseLinesGo [] cur buf acc = some (acc ++ emitPending cur buf) := rfl

theorem parseLinesGo_cons_none (l : List Char) (rest : List (List Char))
    (cur : Option (Nat × List Char)) (buf : List Char) (acc : List Message)
    (hm : matchHeader l = none) :
    parseLinesGo (l :: rest) cur buf acc =
      parseLinesGo rest cur (buf ++ '\n' :: l) acc := by
  simp only [parseLinesGo, hm]

theorem parseLinesGo_cons_bad (l : List Char) (rest : List (List Char))
    (cur : Option (Nat × List Char)) (buf : List Char) (acc : List Message)
    (hd : HeaderMatch) (hm : matchHeader l = some hd)
    (hts : headerTimestamp hd = none) :
    parseLinesGo (l :: rest) cur buf acc = none := by
  simp only [parseLinesGo, hm, hts]

theorem parseLinesGo_cons_good (l : List Char) (rest : List (List Char))
    (cur : Option (Nat × List Char)) (buf : List Char) (acc : List Message)
    (hd : HeaderMatch) (ts : Nat) (hm : matchHeader l = some hd)
    (hts : headerTimestamp hd = some ts) :
    parseLinesGo (l :: rest) cur buf acc =
      parseLinesGo rest (some (ts, hd.author)) hd.rest
        (acc ++ emitPending cur buf) := by
  simp only [parseLinesGo, hm, hts]

theorem emitPending_proj (cur : Option (Nat × List Char)) (buf : List Char) :
    (emitPending cur buf).map projTA = cur.toList := by
  cases cur with
  | none => rfl
  | some p => obtain ⟨ts, a⟩ := p; rfl

theorem parseLinesGo_proj (lines : List (List Char)) :
    ∀ (cur : Option (Nat × List Char)) (buf : List Char)
      (acc msgs : List Message),
      parseLinesGo lines cur buf acc = some msgs →
      msgs.map projTA =
        acc.map projTA ++ cur.toList ++ lines.filterMap headerInfo := by
  induction lines with
  | nil =>
    intro cur buf acc msgs h
    rw [parseLinesGo_nil] at h
    injection h with h
    subst h
    simp [emitPending_proj]
  | cons l rest ih =>
    intro cur buf acc msgs h
    cases hm : matchHeader l with
    | none =>
      rw [parseLinesGo_cons_none _ _ _ _ _ hm] at h
      rw [ih _ _ _ _ h]
      have hhi : headerInfo l = none := by simp [headerInfo, hm]
      simp [List.filterMap_cons, hhi]
    | some hd =>
      cases hts : headerTimestamp hd with
      | none =>
        rw [parseLinesGo_cons_bad _ _ _ _ _ _ hm hts] at h
        cases h
      | some ts =>
        rw [parseLinesGo_cons_good _ _ _ _ _ _ _ hm hts] at h
        rw [ih _ _ _ _ h]
        have hhi : headerInfo l = some (ts, hd.author) := by
          simp [headerInfo, hm, hts]
        simp [List.filterMap_cons, hhi, emitPending_proj,
          List.map_append, List.append_assoc]

theorem parseLinesGo_allValid (lines : List (List Char)) :
    ∀ (cur : Option (Nat × List Char)) (buf : List Char)
      (acc msgs : List Message),
      parseLinesGo lines cur buf acc = some msgs →
      ∀ l ∈ lines, ∀ hd, matchHeader l = some hd →
        headerTimestamp hd ≠ none := by
  induction lines with
  | nil => intro _ _ _ _ _ l hl; cases hl
  | cons l0 rest ih =>
    intro cur buf acc msgs h l hl hd hm
    rw [List.mem_cons] at hl
    rcases hl with rfl | hl
    · cases hts : headerTimestamp hd with
      | none =>
        rw [parseLinesGo_cons_bad _ _ _ _ _ _ hm hts] at h
        cases h
      | some ts => simp [hts]
    · cases hm0 : matchHeader l0 with
      | none =>
        rw [parseLinesGo_cons_none _ _ _ _ _ hm0] at h
        exact ih _ _ _ _ h l hl hd hm
      | some hd0 =>
        cases hts0 : headerTimestamp hd0 with
        | none =>
          rw [parseLinesGo_cons_bad _ _ _ _ _ _ hm0 hts0] at h
          cases h
        | some ts0 =>
          rw [parseLinesGo_cons_good _ _ _ _ _ _ _ hm0 hts0] at h
          exact ih _ _ _ _ h l hl hd hm

theorem filterMap_headerInfo_length (lines : List (List Char))
    (hv : ∀ l ∈ lines, ∀ hd, matchHeader l = some hd →
      headerTimestamp hd ≠ none) :
    (lines.filterMap headerInfo).length =
      (lines.filter (fun l => (matchHeader l).isSome)).length := by
  induction lines with
  | nil => rfl
  | cons l rest ih =>
    have hrest : ∀ l' ∈ rest, ∀ hd, matchHeader l' = some hd →
        headerTimestamp hd ≠ none :=
      fun l' hl' => hv l' (List.mem_cons_of_mem _ hl')
    cases hm : matchHeader l with
    | none =>
      have hhi : headerInfo l = none := by simp [headerInfo, hm]
      simp [List.filterMap_cons, List.filter_cons, hm, hhi, ih hrest]
    | some hd =>
      cases hts : headerTimestamp hd with
      | none => exact absurd hts (hv l (List.mem_cons_self _ _) hd hm)
      | some ts =>
        have hhi : headerInfo l = some (ts, hd.author) := by
          simp [headerInfo, hm, hts]
        simp [List.filterMap_cons, List.filter_cons, hm, hhi, ih hrest]

/-- Claim C6: parse/emit round-trip.  On a successful extraction, the
messages are in bijection with the header lines, in order: the k-th
message's timestamp and author come from the k-th header line (so the
final pending message is emitted too), and the number of messages equals
the number of lines matching the header regex. -/
theorem C6_roundtrip (content : List Char) (msgs : List Message)
    (h : parse content = some msgs) :
    msgs.map projTA = (rustLines content).filterMap headerInfo ∧
    msgs.length =
      ((rustLines content).filter (fun l => (matchHeader l).isSome)).length := by
  have h1 := parseLinesGo_proj (rustLines content) none [] [] msgs h
  simp only [List.map_nil, Option.toList_none, List.nil_append,
    List.append_nil] at h1
  refine ⟨h1, ?_⟩
  have hv := parseLinesGo_allValid (rustLines content) none [] [] msgs h
  have hlen := filterMap_headerInfo_length (rustLines content) hv
  calc msgs.length = (msgs.map projTA).length := (List.length_map _ _).symm
    _ = ((rustLines content).filterMap headerInfo).length := by rw [h1]
    _ = _ := hlen

theorem C6_witness :
    exMsgs6.map projTA = (rustLines exContent6).filterMap headerInfo ∧
    exMsgs6.length =
      ((rustLines exContent6).filter
        (fun l => (matchHeader l).isSome)).length :=
  C6_roundtrip exContent6 exMsgs6 (by decide)

theorem parseLinesGo_bad_mem (lines : List (List Char)) :
    ∀ (cur : Option (Nat × List Char)) (buf : List Char)
      (acc : List Message) (l : List Char) (hd : HeaderMatch),
      l ∈ lines → matchHeader l = some hd → headerTimestamp hd = none →
      parseLinesGo lines cur buf acc = none := by
  induction lines with
  | nil => intro _ _ _ _ _ hl; cases hl
  | cons l0 rest ih =>
    intro cur buf acc l hd hl hm hts
    rw [List.mem_cons] at hl
    rcases hl with rfl | hl
    · exact parseLinesGo_cons_bad _ _ _ _ _ _ hm hts
    · cases hm0 : matchHeader l0 with
      | none =>
        rw [parseLinesGo_cons_none _ _ _ _ _ hm0]
        exact ih _ _ _ _ _ hl hm hts
      | some hd0 =>
        cases hts0 : headerTimestamp hd0 with
        | none => exact parseLinesGo_cons_bad _ _ _ _ _ _ hm0 hts0
        | some ts0 =>
          rw [parseLinesGo_cons_good _ _ _ _ _ _ _ hm0 hts0]
          exact ih _ _ _ _ _ hl hm hts

/-- Claim C9: failure semantics.  If any line of the input matches the
header shape but its date-time is rejected (out-of-range month, day, hour,
minute, second or an invalid civil date), `parse` panics (modelled as
`none`): no message sequence, in particular no partial one, is returned. -/
theorem C9_fatal (content : List Char) (l : List Char) (hd : HeaderMatch)
    (hl : l ∈ rustLines content) (hm : matchHeader l = some hd)
    (hts : headerTimestamp hd = none) : parse content = none :=
  parseLinesGo_bad_mem (rustLines content) none [] [] l hd hl hm hts

theorem C9_witness : parse exContent9 = none :=
  C9_fatal exContent9 exLine9 exHdr9 (by decide) (by decide) (by decide)

/-! ### Header-match structure (lazy author capture) -/

theorem matchDate_eq (l : List Char) :
    matchDate l =
      (numUpTo2 l).bind fun p =>
      (expectChar '/' p.2).bind fun r2 =>
      (numUpTo2 r2).bind fun q =>
      (expectChar '/' q.2).bind fun r4 =>
      (numExactly2 r4).bind fun s =>
      some ((p.1, q.1, s.1), s.2) := rfl

theorem matchTime_eq (l : List Char) :
    matchTime l =
      (numUpTo2 l).bind fun p =>
      (expectChar ':' p.2).bind fun r9 =>
      (numExactly2 r9).bind fun q =>
      (expectChar ':' q.2).bind fun r11 =>
      (numExactly2 r11).bind fun s =>
      (expectChar nbsp s.2).bind fun r13 =>
      (expectAMPM r13).bind fun t =>
      some ((p.1, q.1, s.1, t.1), t.2) := rfl

theorem matchHeader_eq (line : List Char) :
    matchHeader line =
      (expectChar '[' line).bind fun r0 =>
      (matchDate r0).bind fun dt =>
      (expectChar ',' dt.2).bind fun r6 =>
      (expectChar ' ' r6).bind fun r7 =>
      (matchTime r7).bind fun tm =>
      (expectChar ']' tm.2).bind fun r15 =>
      (expectChar ' ' r15).bind fun r16 =>
      (splitOnColonSpace r16).bind fun ar =>
      some ⟨dt.1.1, dt.1.2.1, dt.1.2.2, tm.1.1, tm.1.2.1, tm.1.2.2.1,
        tm.1.2.2.2, ar.1, ar.2⟩ := rfl

theorem expectChar_suffix (c : Char) (l r : List Char)
    (h : expectChar c l = some r) : l = [c] ++ r := by
  cases l with
  | nil => exact Option.noConfusion h
  | cons x xs =>
    by_cases hx : x = c
    · simp only [expectChar, if_pos hx] at h
      injection h with h
      rw [hx, h]
      rfl
    · simp only [expectChar, if_neg hx] at h
      exact Option.noConfusion h

theorem numUpTo2_suffix (l : List Char) (x : Nat × List Char)
    (h : numUpTo2 l = some x) : ∃ p, l = p ++ x.2 := by
  by_cases hc : (l.takeWhile Char.isDigit).length = 1 ∨
      (l.takeWhile Char.isDigit).length = 2
  · simp only [numUpTo2, if_pos hc] at h
    refine ⟨l.takeWhile Char.isDigit, ?_⟩
    rw [← congrArg Prod.snd (Option.some.injEq _ _ |>.mp h)]
    exact (List.takeWhile_append_dropWhile _ _).symm
  · simp only [numUpTo2, if_neg hc] at h
    exact Option.noConfusion h

theorem numExactly2_suffix (l : List Char) (x : Nat × List Char)
    (h : numExactly2 l = some x) : ∃ p, l = p ++ x.2 := by
  by_cases hc : (l.takeWhile Char.isDigit).length = 2
  · simp only [numExactly2, if_pos hc] at h
    refine ⟨l.takeWhile Char.isDigit, ?_⟩
    rw [← congrArg Prod.snd (Option.some.injEq _ _ |>.mp h)]
    exact (List.takeWhile_append_dropWhile _ _).symm
  · simp only [numExactly2, if_neg hc] at h
    exact Option.noConfusion h

theorem expectAMPM_suffix (l : List Char) (x : Bool × List Char)
    (h : expectAMPM l = some x) : ∃ p, l = p ++ x.2 := by
  cases l with
  | nil => exact Option.noConfusion h
  | cons c1 t =>
    cases t with
    | nil => exact Option.noConfusion h
    | cons c2 rest =>
      by_cases hc : c2 = 'M' ∧ (c1 = 'A' ∨ c1 = 'P')
      · simp only [expectAMPM, if_pos hc] at h
        refine ⟨[c1, c2], ?_⟩
        rw [← congrArg Prod.snd (Option.some.injEq _ _ |>.mp h)]
        rfl
      · simp only [expectAMPM, if_neg hc] at h
        exact Option.noConfusion h

theorem matchDate_suffix (l : List Char) (x : (Nat × Nat × Nat) × List Char)
    (h : matchDate l = some x) : ∃ p, l = p ++ x.2 := by
  rw [matchDate_eq] at h
  simp only [Option.bind_eq_some', Option.some.injEq] at h
  obtain ⟨p, hp, r2, h2, q, hq, r4, h4, s, hs, heq⟩ := h
  obtain ⟨p1, e1⟩ := numUpTo2_suffix _ _ hp
  have e2 := expectChar_suffix _ _ _ h2
  obtain ⟨p3, e3⟩ := numUpTo2_suffix _ _ hq
  have e4 := expectChar_suffix _ _ _ h4
  obtain ⟨p5, e5⟩ := numExactly2_suffix _ _ hs
  refine ⟨p1 ++ ['/'] ++ p3 ++ ['/'] ++ p5, ?_⟩
  rw [← congrArg Prod.snd heq]
  rw [e1, e2, e3, e4, e5]
  simp [List.append_assoc]

theorem matchTime_suffix (l : List Char)
    (x : (Nat × Nat × Nat × Bool) × List Char)
    (h : matchTime l = some x) : ∃ p, l = p ++ x.2 := by
  rw [matchTime_eq] at h
  simp only [Option.bind_eq_some', Option.some.injEq] at h
  obtain ⟨p, hp, r9, h9, q, hq, r11, h11, s, hs, r13, h13, t, ht, heq⟩ := h
  obtain ⟨p1, e1⟩ := numUpTo2_suffix _ _ hp
  have e2 := expectChar_suffix _ _ _ h9
  obtain ⟨p3, e3⟩ := numExactly2_suffix _ _ hq
  have e4 := expectChar_suffix _ _ _ h11
  obtain ⟨p5, e5⟩ := numExactly2_suffix _ _ hs
  have e6 := expectChar_suffix _ _ _ h13
  obtain ⟨p7, e7⟩ := expectAMPM_suffix _ _ ht
  refine ⟨p1 ++ [':'] ++ p3 ++ [':'] ++ p5 ++ [nbsp] ++ p7, ?_⟩
  rw [← congrArg Prod.snd heq]
  rw [e1, e2, e3, e4, e5, e6, e7]
  simp [List.append_assoc]

theorem splitOnColonSpace_eq_append (l : List Char)
    (x : List Char × List Char) (h : splitOnColonSpace l = some x) :
    l = x.1 ++ ':' :: ' ' :: x.2 := by
  induction l generalizing x with
  | nil => exact Option.noConfusion h
  | cons c rest ih =>
    by_cases hc : c = ':' ∧ rest.head? = some ' '
    · simp only [splitOnColonSpace, if_pos hc] at h
      injection h with h
      obtain ⟨hc1, hc2⟩ := hc
      cases rest with
      | nil => cases hc2
      | cons r0 rtail =>
        simp only [List.head?_cons, Option.some.injEq] at hc2
        rw [← h]
        simp [hc1, hc2]
    · simp only [splitOnColonSpace, if_neg hc] at h
      rw [Option.map_eq_some'] at h
      obtain ⟨p, hp, heq⟩ := h
      rw [← heq]
      simp [ih p hp]

theorem splitOnColonSpace_minimal (l : List Char)
    (x : List Char × List Char) (h : splitOnColonSpace l = some x) :
    ∀ a' r', l = a' ++ ':' :: ' ' :: r' → x.1.length ≤ a'.length := by
  induction l generalizing x with
  | nil => exact Option.noConfusion h
  | cons c rest ih =>
    intro a' r' he
    by_cases hc : c = ':' ∧ rest.head? = some ' '
    · simp only [splitOnColonSpace, if_pos hc] at h
      injection h with h
      rw [← h]
      simp
    · simp only [splitOnColonSpace, if_neg hc] at h
      rw [Option.map_eq_some'] at h
      obtain ⟨p, hp, heq⟩ := h
      cases a' with
      | nil =>
        simp only [List.nil_append, List.cons.injEq] at he
        refine absurd ⟨he.1, ?_⟩ hc
        rw [he.2]
        rfl
      | cons c' a'' =>
        simp only [List.cons_append, List.cons.injEq] at he
        rw [← heq]
        simp only [List.length_cons]
        have := ih p hp a'' r' he.2
        simpa using Nat.succ_le_succ this

/-- Claim C3, counterexample: the author capture of the regex is lazy
`(.*?)` and may match the empty string.  On the line
`[1/2/24, 9:05:07<NBSP>AM] : hello` the extractor emits one message whose
author is empty, refuting the claim that every emitted message has a
non-empty author. -/
theorem C3_counterexample :
    ((parse exLine3).getD []).map Message.author = [[]] ∧
    ((parse exLine3).getD []).length = 1 := by decide

/-- Claim C3 (amended): the author of a header match is the shortest -
possibly empty - run of characters between the closing bracket of the
header and the first colon-space separator (the spec says shortest
non-empty; emptiness is allowed by the lazy capture). -/
theorem C3_author_shortest (line : List Char) (h : HeaderMatch)
    (hm : matchHeader line = some h) :
    ∃ pre, line = pre ++ h.author ++ ':' :: ' ' :: h.rest ∧
      ∀ a' r', h.author ++ ':' :: ' ' :: h.rest = a' ++ ':' :: ' ' :: r' →
        h.author.length ≤ a'.length := by
  rw [matchHeader_eq] at hm
  simp only [Option.bind_eq_some', Option.some.injEq] at hm
  obtain ⟨r0, h0, dt, h1, r6, h2, r7, h3, tm, h4, r15, h5, r16, h6, ar, h7,
    h8⟩ := hm
  have hauthor : h.author = ar.1 := by rw [← h8]
  have hrest : h.rest = ar.2 := by rw [← h8]
  have hsp := splitOnColonSpace_eq_append r16 ar h7
  have e0 := expectChar_suffix _ _ _ h0
  obtain ⟨p1, e1⟩ := matchDate_suffix _ _ h1
  have e2 := expectChar_suffix _ _ _ h2
  have e3 := expectChar_suffix _ _ _ h3
  obtain ⟨p4, e4⟩ := matchTime_suffix _ _ h4
  have e5 := expectChar_suffix _ _ _ h5
  have e6 := expectChar_suffix _ _ _ h6
  refine ⟨['['] ++ p1 ++ [','] ++ [' '] ++ p4 ++ [']'] ++ [' '], ?_, ?_⟩
  · rw [e0, e1, e2, e3, e4, e5, e6, hsp, hauthor, hrest]
    simp [List.append_assoc]
  · intro a' r' heq
    rw [hauthor]
    refine splitOnColonSpace_minimal r16 ar h7 a' r' ?_
    rw [hsp, ← hauthor, ← hrest]
    exact heq

theorem C3_witness :
    ∃ pre, exLine3 = pre ++ exHdr3.author ++ ':' :: ' ' :: exHdr3.rest ∧
      ∀ a' r',
        exHdr3.author ++ ':' :: ' ' :: exHdr3.rest =
          a' ++ ':' :: ' ' :: r' →
        exHdr3.author.length ≤ a'.length :=
  C3_author_shortest exLine3 exHdr3 (by decide)

/-! ### Line-terminator invariance -/

theorem dropWhile_append_one (p : Char → Bool) (l : List Char) (c : Char) :
    (l ++ [c]).dropWhile p =
      if (l.dropWhile p).isEmpty then [c].dropWhile p
      else l.dropWhile p ++ [c] := by
  induction l with
  | nil => simp
  | cons x xs ih =>
    by_cases px : p x
    · simp only [List.cons_append, List.dropWhile_cons, px, if_true, ih]
    · simp [List.cons_append, List.dropWhile_cons, px]

theorem trim_append_ws (l : List Char) (c : Char)
    (hc : rustIsWhitespace c = true) : trim (l ++ [c]) = trim l := by
  unfold trim
  rw [dropWhile_append_one]
  by_cases he : (l.dropWhile rustIsWhitespace).isEmpty
  · rw [if_pos he]
    have h1 : ([c].dropWhile rustIsWhitespace) = [] := by
      simp [List.dropWhile_cons, hc]
    have h2 : l.dropWhile rustIsWhitespace = [] :=
      List.isEmpty_iff.mp he
    rw [h1, h2]
  · rw [if_neg he, List.reverse_append]
    simp [List.dropWhile_cons, hc]

theorem takeWhile_append_one (p : Char → Bool) (c : Char)
    (hc : p c = false) (l : List Char) :
    (l ++ [c]).takeWhile p = l.takeWhile p ∧
    (l ++ [c]).dropWhile p = l.dropWhile p ++ [c] := by
  induction l with
  | nil => simp [List.takeWhile, List.dropWhile, hc]
  | cons x xs ih =>
    by_cases hx : p x
    · simp [List.takeWhile_cons, List.dropWhile_cons, hx, ih]
    · simp [List.takeWhile_cons, List.dropWhile_cons, hx]

theorem expectChar_append_cr (c : Char) (hc : ¬ c = '\r') (l : List Char) :
    expectChar c (l ++ ['\r']) =
      (expectChar c l).map (fun r => r ++ ['\r']) := by
  cases l with
  | nil =>
    have h : ¬ ('\r' = c) := fun h => hc h.symm
    simp [expectChar, h]
  | cons x xs =>
    by_cases hx : x = c
    · simp [expectChar, hx]
    · simp [expectChar, hx]

theorem numUpTo2_append_cr (l : List Char) :
    numUpTo2 (l ++ ['\r']) =
      (numUpTo2 l).map (fun x => (x.1, x.2 ++ ['\r'])) := by
  obtain ⟨ht, hd⟩ := takeWhile_append_one Char.isDigit '\r' (by decide) l
  by_cases hc : (l.takeWhile Char.isDigit).length = 1 ∨
      (l.takeWhile Char.isDigit).length = 2
  · simp [numUpTo2, ht, hd, hc]
  · simp [numUpTo2, ht, hd, hc]

theorem numExactly2_append_cr (l : List Char) :
    numExactly2 (l ++ ['\r']) =
      (numExactly2 l).map (fun x => (x.1, x.2 ++ ['\r'])) := by
  obtain ⟨ht, hd⟩ := takeWhile_append_one Char.isDigit '\r' (by decide) l
  by_cases hc : (l.takeWhile Char.isDigit).length = 2
  · simp [numExactly2, ht, hd, hc]
  · simp [numExactly2, ht, hd, hc]

theorem expectAMPM_append_cr (l : List Char) :
    expectAMPM (l ++ ['\r']) =
      (expectAMPM l).map (fun x => (x.1, x.2 ++ ['\r'])) := by
  cases l with
  | nil => rfl
  | cons c1 t =>
    cases t with
    | nil =>
      have h : ¬ (('\r' : Char) = 'M' ∧ (c1 = 'A' ∨ c1 = 'P')) := by
        intro hx
        exact absurd hx.1 (by decide)
      simp [expectAMPM, h]
    | cons c2 rest =>
      by_cases hc : c2 = 'M' ∧ (c1 = 'A' ∨ c1 = 'P')
      · simp [expectAMPM, hc]
      · simp [expectAMPM, hc]

theorem splitOnColonSpace_cons (c : Char) (rest : List Char) :
    splitOnColonSpace (c :: rest) =
      if c = ':' ∧ rest.head? = some ' ' then some ([], rest.tail)
      else (splitOnColonSpace rest).map (fun p => (c :: p.1, p.2)) := rfl

theorem splitOnColonSpace_append_cr (l : List Char) :
    splitOnColonSpace (l ++ ['\r']) =
      (splitOnColonSpace l).map (fun x => (x.1, x.2 ++ ['\r'])) := by
  induction l with
  | nil => rfl
  | cons c rest ih =>
    rw [List.cons_append, splitOnColonSpace_cons, splitOnColonSpace_cons]
    by_cases hc : c = ':' ∧ rest.head? = some ' '
    · obtain ⟨hc1, hc2⟩ := hc
      subst hc1
      cases rest with
      | nil => exact Option.noConfusion hc2
      | cons a t =>
        have ha : a = ' ' := by
          simp only [List.head?_cons, Option.some.injEq] at hc2
          exact hc2
        subst ha
        simp
    · have hc' : ¬ (c = ':' ∧ (rest ++ ['\r']).head? = some ' ') := by
        intro hx
        apply hc
        refine ⟨hx.1, ?_⟩
        cases rest with
        | nil => exact absurd hx.2 (by decide)
        | cons a t => exact hx.2
      rw [if_neg hc, if_neg hc', ih]
      cases splitOnColonSpace rest <;> rfl

theorem matchDate_append_cr (l : List Char) :
    matchDate (l ++ ['\r']) =
      (matchDate l).map (fun x => (x.1, x.2 ++ ['\r'])) := by
  rw [matchDate_eq, matchDate_eq, numUpTo2_append_cr]
  cases numUpTo2 l with
  | none => rfl
  | some p =>
    simp only [Option.map_some', Option.some_bind']
    rw [expectChar_append_cr '/' (by decide) p.2]
    cases expectChar '/' p.2 with
    | none => rfl
    | some r2 =>
      simp only [Option.map_some', Option.some_bind']
      rw [numUpTo2_append_cr]
      cases numUpTo2 r2 with
      | none => rfl
      | some q =>
        simp only [Option.map_some', Option.some_bind']
        rw [expectChar_append_cr '/' (by decide) q.2]
        cases expectChar '/' q.2 with
        | none => rfl
        | some r4 =>
          simp only [Option.map_some', Option.some_bind']
          rw [numExactly2_append_cr]
          cases numExactly2 r4 with
          | none => rfl
          | some s => rfl

theorem matchTime_append_cr (l : List Char) :
    matchTime (l ++ ['\r']) =
      (matchTime l).map (fun x => (x.1, x.2 ++ ['\r'])) := by
  rw [matchTime_eq, matchTime_eq, numUpTo2_append_cr]
  cases numUpTo2 l with
  | none => rfl
  | some p =>
    simp only [Option.map_some', Option.some_bind']
    rw [expectChar_append_cr ':' (by decide) p.2]
    cases expectChar ':' p.2 with
    | none => rfl
    | some r9 =>
      simp only [Option.map_some', Option.some_bind']
      rw [numExactly2_append_cr]
      cases numExactly2 r9 with
      | none => rfl
      | some q =>
        simp only [Option.map_some', Option.some_bind']
        rw [expectChar_append_cr ':' (by decide) q.2]
        cases expectChar ':' q.2 with
        | none => rfl
        | some r11 =>
          simp only [Option.map_some', Option.some_bind']
          rw [numExactly2_append_cr]
          cases numExactly2 r11 with
          | none => rfl
          | some s =>
            simp only [Option.map_some', Option.some_bind']
            rw [expectChar_append_cr nbsp (by decide) s.2]
            cases expectChar nbsp s.2 with
            | none => rfl
            | some r13 =>
              simp only [Option.map_some', Option.some_bind']
              rw [expectAMPM_append_cr]
              cases expectAMPM r13 with
              | none => rfl
              | some t => rfl

theorem headerTimestamp_addCR (h : HeaderMatch) :
    headerTimestamp (addCRHeader h) = headerTimestamp h := rfl

theorem matchHeader_append_cr (l : List Char) :
    matchHeader (l ++ ['\r']) = (matchHeader l).map addCRHeader := by
  rw [matchHeader_eq, matchHeader_eq,
    expectChar_append_cr '[' (by decide) l]
  cases expectChar '[' l with
  | none => rfl
  | some r0 =>
    simp only [Option.map_some', Option.some_bind']
    rw [matchDate_append_cr]
    cases matchDate r0 with
    | none => rfl
    | some dt =>
      simp only [Option.map_some', Option.some_bind']
      rw [expectChar_append_cr ',' (by decide) dt.2]
      cases expectChar ',' dt.2 with
      | none => rfl
      | some r6 =>
        simp only [Option.map_some', Option.some_bind']
        rw [expectChar_append_cr ' ' (by decide) r6]
        cases expectChar ' ' r6 with
        | none => rfl
        | some r7 =>
          simp only [Option.map_some', Option.some_bind']
          rw [matchTime_append_cr]
          cases matchTime r7 with
          | none => rfl
          | some tm =>
            simp only [Option.map_some', Option.some_bind']
            rw [expectChar_append_cr ']' (by decide) tm.2]
            cases expectChar ']' tm.2 with
            | none => rfl
            | some r15 =>
              simp only [Option.map_some', Option.some_bind']
              rw [expectChar_append_cr ' ' (by decide) r15]
              cases expectChar ' ' r15 with
              | none => rfl
              | some r16 =>
                simp only [Option.map_some', Option.some_bind']
                rw [splitOnColonSpace_append_cr]
                cases splitOnColonSpace r16 with
                | none => rfl
                | some ar => rfl

theorem parseLinesGo_congr_tail (L : List Char) (ls1 ls2 : List (List Char))
    (h : ∀ (cur : Option (Nat × List Char)) (buf : List Char)
      (accM : List Message),
      parseLinesGo ls1 cur buf accM = parseLinesGo ls2 cur buf accM) :
    ∀ (cur : Option (Nat × List Char)) (buf : List Char)
      (accM : List Message),
      parseLinesGo (L :: ls1) cur buf accM =
        parseLinesGo (L :: ls2) cur buf accM := by
  intro cur buf accM
  cases hm : matchHeader L with
  | none =>
    rw [parseLinesGo_cons_none _ _ _ _ _ hm,
      parseLinesGo_cons_none _ _ _ _ _ hm]
    exact h _ _ _
  | some hd =>
    cases hts : headerTimestamp hd with
    | none =>
      rw [parseLinesGo_cons_bad _ _ _ _ _ _ hm hts,
        parseLinesGo_cons_bad _ _ _ _ _ _ hm hts]
    | some ts =>
      rw [parseLinesGo_cons_good _ _ _ _ _ _ _ hm hts,
        parseLinesGo_cons_good _ _ _ _ _ _ _ hm hts]
      exact h _ _ _

theorem parseLinesGo_last_cr (l : List Char) :
    ∀ (cur : Option (Nat × List Char)) (buf : List Char)
      (accM : List Message),
      parseLinesGo [l ++ ['\r']] cur buf accM =
        parseLinesGo [l] cur buf accM := by
  intro cur buf accM
  cases hm : matchHeader l with
  | none =>
    have hm' : matchHeader (l ++ ['\r']) = none := by
      rw [matchHeader_append_cr, hm]
      rfl
    rw [parseLinesGo_cons_none _ _ _ _ _ hm',
      parseLinesGo_cons_none _ _ _ _ _ hm, parseLinesGo_nil,
      parseLinesGo_nil]
    cases cur with
    | none => rfl
    | some p =>
      obtain ⟨ts, a⟩ := p
      simp only [emitPending]
      have heq : buf ++ '\n' :: (l ++ ['\r']) =
          (buf ++ '\n' :: l) ++ ['\r'] := by simp
      rw [heq, trim_append_ws _ _ (by decide)]
  | some hd =>
    have hm' : matchHeader (l ++ ['\r']) = some (addCRHeader hd) := by
      rw [matchHeader_append_cr, hm]
      rfl
    cases hts : headerTimestamp hd with
    | none =>
      rw [parseLinesGo_cons_bad _ _ _ _ _ _ hm'
          ((headerTimestamp_addCR hd).trans hts),
        parseLinesGo_cons_bad _ _ _ _ _ _ hm hts]
    | some ts =>
      rw [parseLinesGo_cons_good _ _ _ _ _ _ _ hm'
          ((headerTimestamp_addCR hd).trans hts),
        parseLinesGo_cons_good _ _ _ _ _ _ _ hm hts,
        parseLinesGo_nil, parseLinesGo_nil]
      simp only [addCRHeader, emitPending]
      rw [trim_append_ws _ _ (by decide)]

theorem matchHeader_nil : matchHeader [] = none := rfl

theorem parseLinesGo_extra_empty (ls : List (List Char)) :
    ∀ (cur : Option (Nat × List Char)) (buf : List Char)
      (accM : List Message),
      parseLinesGo (ls ++ [[]]) cur buf accM =
        parseLinesGo ls cur buf accM := by
  induction ls with
  | nil =>
    intro cur buf accM
    rw [List.nil_append, parseLinesGo_cons_none _ _ _ _ _ matchHeader_nil,
      parseLinesGo_nil, parseLinesGo_nil]
    cases cur with
    | none => rfl
    | some p =>
      obtain ⟨ts, a⟩ := p
      simp only [emitPending]
      have heq : buf ++ '\n' :: ([] : List Char) = buf ++ ['\n'] := rfl
      rw [heq, trim_append_ws _ _ (by decide)]
  | cons L ls ih =>
    intro cur buf accM
    exact parseLinesGo_congr_tail L _ _ ih cur buf accM

theorem linesGo_nil_eq (acc : List Char) :
    linesGo [] acc = if acc.isEmpty then [] else [acc.reverse] := rfl

theorem linesGo_cons_eq (c : Char) (rest acc : List Char) :
    linesGo (c :: rest) acc =
      if c = '\n' then (stripCRHead acc).reverse :: linesGo rest []
      else linesGo rest (c :: acc) := rfl

theorem stripCRHead_no_cr (acc : List Char) (h : '\r' ∉ acc) :
    stripCRHead acc = acc := by
  cases acc with
  | nil => rfl
  | cons a t =>
    have ha : ¬ a = '\r' := by
      intro he
      exact h (he ▸ List.mem_cons_self a t)
    simp [stripCRHead, ha]

theorem linesGo_replaceLF (s : List Char) :
    ∀ acc, '\r' ∉ s → '\r' ∉ acc →
      linesGo (replaceLF s) acc = linesGo s acc := by
  induction s with
  | nil => intro acc _ _; rfl
  | cons ch s ih =>
    intro acc hs hacc
    have hch : ¬ ch = '\r' := by
      intro he
      exact hs (he ▸ List.mem_cons_self ch s)
    have hs' : '\r' ∉ s := fun he => hs (List.mem_cons_of_mem _ he)
    by_cases hnl : ch = '\n'
    · subst hnl
      have hr : replaceLF ('\n' :: s) = '\r' :: '\n' :: replaceLF s := by
        simp [replaceLF]
      rw [hr]
      have hcr : ¬ ('\r' : Char) = '\n' := by decide
      rw [linesGo_cons_eq '\r' ('\n' :: replaceLF s) acc, if_neg hcr,
        linesGo_cons_eq '\n' (replaceLF s) ('\r' :: acc), if_pos rfl,
        linesGo_cons_eq '\n' s acc, if_pos rfl]
      have h1 : stripCRHead ('\r' :: acc) = acc := by simp [stripCRHead]
      rw [h1, stripCRHead_no_cr acc hacc, ih [] hs' (by simp)]
    · simp only [replaceLF, if_neg hnl, List.cons_append, List.nil_append]
      rw [linesGo_cons_eq ch (replaceLF s) acc, if_neg hnl,
        linesGo_cons_eq ch s acc, if_neg hnl]
      have hacc' : '\r' ∉ ch :: acc := by
        intro hmem
        rcases List.mem_cons.mp hmem with he | he
        · exact hch he.symm
        · exact hacc he
      exact ih (ch :: acc) hs' hacc'

theorem parse_replaceLF (c : List Char) (h : '\r' ∉ c) :
    parse (replaceLF c) = parse c := by
  unfold parse rustLines
  rw [linesGo_replaceLF c [] h (by simp)]

theorem parse_append_nl (c : List Char) : parse (c ++ ['\n']) = parse c := by
  unfold parse rustLines
  have key : ∀ (s acc : List Char) (cur : Option (Nat × List Char))
      (buf : List Char) (accM : List Message),
      parseLinesGo (linesGo (s ++ ['\n']) acc) cur buf accM =
        parseLinesGo (linesGo s acc) cur buf accM := by
    intro s
    induction s with
    | nil =>
      intro acc cur buf accM
      have h1 : linesGo ([] ++ ['\n']) acc = [(stripCRHead acc).reverse] := by
        simp [linesGo]
      rw [h1]
      cases acc with
      | nil =>
        have h2 : linesGo [] ([] : List Char) = [] := rfl
        rw [h2]
        exact parseLinesGo_extra_empty [] cur buf accM
      | cons a0 t =>
        have h2 : linesGo [] (a0 :: t) = [(a0 :: t).reverse] := by
          simp [linesGo]
        rw [h2]
        by_cases ha : a0 = '\r'
        · subst ha
          have h3 : stripCRHead ('\r' :: t) = t := by simp [stripCRHead]
          have h4 : ('\r' :: t).reverse = t.reverse ++ ['\r'] := by simp
          rw [h3, h4]
          exact (parseLinesGo_last_cr t.reverse cur buf accM).symm
        · have h3 : stripCRHead (a0 :: t) = a0 :: t := by
            simp [stripCRHead, ha]
          rw [h3]
    | cons ch s ih =>
      intro acc cur buf accM
      by_cases hnl : ch = '\n'
      · have h1 : linesGo ((ch :: s) ++ ['\n']) acc =
            (stripCRHead acc).reverse :: linesGo (s ++ ['\n']) [] := by
          simp [linesGo, hnl]
        have h2 : linesGo (ch :: s) acc =
            (stripCRHead acc).reverse :: linesGo s [] := by
          simp [linesGo, hnl]
        rw [h1, h2]
        exact parseLinesGo_congr_tail _ _ _
          (fun cur' buf' accM' => ih [] cur' buf' accM') cur buf accM
      · have h1 : linesGo ((ch :: s) ++ ['\n']) acc =
            linesGo (s ++ ['\n']) (ch :: acc) := by
          simp [linesGo, hnl]
        have h2 : linesGo (ch :: s) acc = linesGo s (ch :: acc) := by
          simp [linesGo, hnl]
        rw [h1, h2]
        exact ih (ch :: acc) cur buf accM
  exact key c [] none [] []

/-- Claim C10, counterexample: on an input that already contains a CRLF
inside a message body, replacing every LF by CRLF changes the extracted
messages (the body keeps a stray CR), so the extractor is not invariant
under that rewriting for every input. -/
theorem C10_counterexample :
    parse (replaceLF exContent10) ≠ parse exContent10 := by decide

/-- Claim C10 (amended): the extractor is invariant under appending a
single trailing newline, for every input; and it is invariant under
replacing every LF terminator by CRLF provided the input contains no
carriage return (the counterexample shows the proviso is needed). -/
theorem C10_line_endings (c : List Char) :
    ('\r' ∉ c → parse (replaceLF c) = parse c) ∧
    parse (c ++ ['\n']) = parse c :=
  ⟨fun h => parse_replaceLF c h, parse_append_nl c⟩

theorem C10_witness :
    parse (replaceLF exContent10ok) = parse exContent10ok :=
  (C10_line_endings exContent10ok).1 (by decide)

end WS
